import Mathlib

/-!
Verification of the Agentarium terrain layout engine and agent event interpreter.

This file is a shallow embedding, in Lean 4, of the core of the
`agentarium-api` repository:

* `app/services/terrain.py` — the terrain layout engine
  (`calculate_positions_for_layout` and its helpers), and
* `app/services/agent.py` — the agent session store and hook-event handlers
  (`_handle_session_start`, `_handle_pre_tool_use`, `extract_file_path`,
  `generate_thought`).

Modelling conventions:

* Python floats are modelled by real numbers (`ℝ`); `math.cos`, `math.sin`,
  `math.log`, `math.pi` become `Real.cos`, `Real.sin`, `Real.log`, `Real.pi`.
* Python's global `random` module (Mersenne Twister) is modelled by an
  explicit PRNG state threaded through the computation.  The concrete
  generator is a small LCG rather than the Mersenne Twister, but the model
  preserves the two properties the code relies on: `random.seed(s)` makes the
  subsequent stream a deterministic function of `s` alone, and
  `random.uniform(a, b)` returns a value in `[a, b]`.
* CPython's (per-process) string `hash` is modelled by a fixed concrete
  function `pyHash`; within one process the real hash is likewise a fixed
  function of the string.
* Python dicts built by insertion are modelled by filtered lists (for the
  parent→children and folder→files indices, whose buckets receive elements in
  list order) and by first-occurrence key lists (`fileFolderKeys`) for
  iteration order over `files_by_folder`.
* The recursive functions `calculate_total_contents` and
  `position_folder_and_children` recurse over the parent→children index; the
  embedding makes them total with an explicit fuel argument, instantiated at
  top level with `layout.folders.length + 1`, which is shown to be sufficient
  whenever the snapshot root is not itself a folder path (the situation in
  which the Python recursion terminates).
* Pydantic models ignore constructor keyword arguments that are not declared
  fields.  The embedded `Folder` structure therefore has exactly the fields
  declared in `app/schemas/filesystem.py`; the `total_contents=` and
  `parent_path=` arguments passed in `terrain.py` are computed and then
  dropped, as they are at runtime.
-/

namespace Agentarium

noncomputable section

/-- 3D position in space (`app/schemas/filesystem.py`, `Position`). -/
structure Position where
  x : ℝ
  y : ℝ
  z : ℝ

/-- Folder in filesystem layout (`app/schemas/filesystem.py`, `Folder`).
These are exactly the declared pydantic fields; extra constructor keyword
arguments are ignored by pydantic and hence do not appear here. -/
structure Folder where
  path : String
  name : String
  depth : Nat
  file_count : Nat
  position : Option Position := none
  height : Option ℝ := none

/-- File in filesystem layout (`app/schemas/filesystem.py`, `File`). -/
structure File where
  path : String
  name : String
  folder : String
  size : Nat
  position : Option Position := none

/-- Complete filesystem layout (`app/schemas/filesystem.py`,
`FilesystemLayout`).  The timestamp is opaque to the layout engine and is
modelled by a natural number. -/
structure FilesystemLayout where
  root : String
  folders : List Folder
  files : List File
  scanned_at : Nat

/-! ## Parent-path derivation (`terrain.py`, lines 180–184)

`"/".join(folder.path.rsplit("/", 1)[:-1])` equals the part of the string
strictly before the **last** `'/'` when a `'/'` is present, and the empty
string otherwise.  We compute it on the character list: reverse, drop up to
the first `'/'`, drop that `'/'`, reverse back. -/

/-- The part of `p` strictly before its last `'/'` (empty if `p` has no
`'/'`): the value of `"/".join(p.rsplit("/", 1)[:-1])`. -/
def rawParent (p : String) : String :=
  if p.data.contains '/' then
    String.mk ((p.data.reverse.dropWhile (fun c => c ≠ '/')).tail.reverse)
  else ""

/-- The parent path assigned by `calculate_positions_for_layout`: the raw
parent, with the empty string replaced by the snapshot root. -/
def derivedParent (root p : String) : String :=
  let q := rawParent p
  if q = "" then root else q

/-- `folder_children[p]`: the folders whose derived parent path is `p`, in
input order (`terrain.py`, lines 174–184). -/
def folderChildren (layout : FilesystemLayout) (p : String) : List Folder :=
  layout.folders.filter (fun f => derivedParent layout.root f.path = p)

/-- `files_by_folder[p]`: the files whose `folder` field is `p`, in input
order (`terrain.py`, lines 187–189). -/
def filesByFolder (layout : FilesystemLayout) (p : String) : List File :=
  layout.files.filter (fun f => f.folder = p)

/-! ## Recursive total contents (`terrain.py`, `calculate_total_contents`) -/

/-- `calculate_total_contents` (`terrain.py`, lines 113–136), made total with
a fuel argument: direct files + direct subfolders + recursive totals of the
subfolders. -/
def calculate_total_contents (layout : FilesystemLayout) : Nat → String → Nat
  | 0, _ => 0
  | fuel + 1, p =>
    let direct_files := (filesByFolder layout p).length
    let children := folderChildren layout p
    direct_files + children.length
      + (children.map (fun c => calculate_total_contents layout fuel c.path)).sum

/-- Fuel sufficient for every call made by `calculate_positions_for_layout`
(one more than the number of folders). -/
def defaultFuel (layout : FilesystemLayout) : Nat :=
  layout.folders.length + 1

/-- The recursive total contents of the folder at path `p`, at the default
fuel. -/
def totalContentsOf (layout : FilesystemLayout) (p : String) : Nat :=
  calculate_total_contents layout (defaultFuel layout) p

/-- `folder_total_contents.get(folder.path, 0)` (`terrain.py`, line 234): the
dict holds an entry for every folder path of the layout. -/
def folderTotalContentsGet (layout : FilesystemLayout) (p : String) : Nat :=
  if (layout.folders.map Folder.path).contains p then totalContentsOf layout p else 0

/-- `max(folder_total_contents.values()) if folder_total_contents else 1`
(`terrain.py`, line 199). -/
def maxContents (layout : FilesystemLayout) : Nat :=
  match layout.folders with
  | [] => 1
  | _ => ((layout.folders.map (fun f => totalContentsOf layout f.path)).foldl max 0)

/-! ## Heights and elevations -/

/-- `calculate_elevation` (`terrain.py`, lines 16–30): always `0.0`. -/
def calculate_elevation (_depth : Nat) (_file_count : Nat) : ℝ := 0.0

/-- `calculate_folder_height` (`terrain.py`, lines 139–155). -/
def calculate_folder_height (total_contents : Nat) (max_contents : Nat) : ℝ :=
  if max_contents ≤ 0 then 2.0
  else 2.0 + 8.0 * (Real.log (total_contents + 1) / Real.log (max_contents + 1))

/-! ## Seeded randomness (`random.seed` / `random.uniform`)

The Mersenne Twister behind Python's `random` module is modelled by a linear
congruential generator.  The model keeps the interface semantics the code
depends on: seeding replaces the generator state by a function of the seed
alone, and `uniform a b` produces a value in `[a, b]` and advances the
state. -/

/-- Modelled PRNG state (the state of Python's global `random` generator). -/
structure PRNGState where
  state : Nat

/-- One step of the modelled generator. -/
def prngNext (g : PRNGState) : Nat × PRNGState :=
  let s := (g.state * 1103515245 + 12345) % 2147483648
  (s, ⟨s⟩)

/-- `random.seed(seed)`: the new state is a function of the seed alone. -/
def randomSeed (seed : Int) : PRNGState :=
  ⟨(seed.natAbs * 2654435761 + 97) % 2147483648⟩

/-- `random.uniform(a, b)`: a value in `[a, b]`, advancing the state. -/
def randomUniform (a b : ℝ) (g : PRNGState) : ℝ × PRNGState :=
  let r := prngNext g
  (a + (b - a) * (((r.1 % 1000000 : Nat) : ℝ) / 1000000), r.2)

/-- Modelled CPython string hash: a fixed function of the string (the real
hash is likewise fixed within one process). -/
def pyHash (s : String) : Int :=
  s.foldl (fun h c => (h * 31 + c.toNat) % 1000000007) 7

/-! ## File positions (`terrain.py`, `calculate_file_position`) -/

/-- `calculate_file_position` (`terrain.py`, lines 71–110).  The incoming
ambient generator state `_amb` is discarded by the initial
`random.seed(seed)`; the function returns the computed position together with
the generator state it leaves behind. -/
def calculate_file_position (parent_position : Position) (file_index : Nat)
    (total_files_in_folder : Nat) (seed : Int) (_amb : PRNGState) :
    Position × PRNGState :=
  let g0 := randomSeed seed
  let r1 := randomUniform (-0.3) 0.3 g0
  let angle := (file_index : ℝ) * (2 * Real.pi / ((max total_files_in_folder 1 : Nat) : ℝ))
      + r1.1
  let r2 := randomUniform (-1.0) 1.0 r1.2
  let radius := 3.0 + r2.1
  let x_offset := Real.cos angle * radius
  let z_offset := Real.sin angle * radius
  let r3 := randomUniform 0.3 0.7 r2.2
  (⟨parent_position.x + x_offset, r3.1, parent_position.z + z_offset⟩, r3.2)

/-! ## Folder positions (`terrain.py`, `position_folder_and_children`) -/

/-- The position computed for a folder from its depth, its parent's position,
and its sibling index/count (`terrain.py`, lines 211–231). -/
def place_position (folder : Folder) (parent_position : Position)
    (sibling_index sibling_count : Nat) : Position :=
  let elevation := calculate_elevation folder.depth folder.file_count
  if folder.depth = 1 then
    let angle := (sibling_index : ℝ) * (2 * Real.pi / (sibling_count : ℝ))
    ⟨Real.cos angle * 20.0, elevation, Real.sin angle * 20.0⟩
  else
    let angle := if 0 < sibling_count
      then (sibling_index : ℝ) * (2 * Real.pi / (sibling_count : ℝ)) else 0
    ⟨parent_position.x + Real.cos angle * 5.0, elevation,
     parent_position.z + Real.sin angle * 5.0⟩

/-- The positioned folder record appended by `position_folder_and_children`
(`terrain.py`, lines 241–251).  The `total_contents=` and `parent_path=`
keyword arguments passed there are not declared fields of the pydantic
`Folder` model and are therefore dropped. -/
def mkPositioned (layout : FilesystemLayout) (maxC : Nat) (folder : Folder)
    (pos : Position) : Folder :=
  { path := folder.path, name := folder.name, depth := folder.depth,
    file_count := folder.file_count, position := some pos,
    height := some (calculate_folder_height (folderTotalContentsGet layout folder.path) maxC) }

/-- `enumerate`: map with a running index starting at `j`. -/
def enumMap (g : Nat → α → β) : Nat → List α → List β
  | _, [] => []
  | j, a :: as => g j a :: enumMap g (j + 1) as

/-- `position_folder_and_children` (`terrain.py`, lines 208–256), made total
with a fuel argument: emits the positioned record for `folder`, then the
records of its children (by derived parent path), depth-first and in order.
The `parent_folder_path` argument is only used for the `parent_path=` keyword
argument that pydantic drops. -/
def positionRec (layout : FilesystemLayout) (maxC : Nat) :
    Nat → Folder → Position → Nat → Nat → String → List Folder
  | 0, _, _, _, _, _ => []
  | fuel + 1, folder, parent_position, sibling_index, sibling_count, _parent_folder_path =>
    let position := place_position folder parent_position sibling_index sibling_count
    let children := folderChildren layout folder.path
    mkPositioned layout maxC folder position ::
      (enumMap (fun j c =>
        positionRec layout maxC fuel c position j children.length folder.path) 0 children).flatten

/-! ## File placement loop (`terrain.py`, lines 263–294) -/

/-- First-occurrence key order of `files_by_folder` (iteration order of a
Python dict built by insertion). -/
def fileFolderKeys (files : List File) : List String :=
  files.foldl (fun acc fl => if acc.contains fl.folder then acc else acc ++ [fl.folder]) []

/-- The inner `for index, file in enumerate(files)` loop: thread the PRNG
state through `calculate_file_position`, seeding with the hash of each file
path. -/
def position_files_group (parent_position : Position) (total : Nat) :
    Nat → PRNGState → List File → List File × PRNGState
  | _, g, [] => ([], g)
  | i, g, fl :: fls =>
    let res := calculate_file_position parent_position i total (pyHash fl.path) g
    let rest := position_files_group parent_position total (i + 1) res.2 fls
    ({ path := fl.path, name := fl.name, folder := fl.folder, size := fl.size,
       position := some res.1 } :: rest.1, rest.2)

/-- The outer loop over `files_by_folder.items()`: groups whose folder path
has no recorded position are skipped. -/
def position_all_files (layout : FilesystemLayout) (folderPos : String → Option Position) :
    PRNGState → List String → List File × PRNGState
  | g, [] => ([], g)
  | g, key :: keys =>
    match folderPos key with
    | none => position_all_files layout folderPos g keys
    | some pp =>
      let files := filesByFolder layout key
      let res := position_files_group pp files.length 0 g files
      let rest := position_all_files layout folderPos res.2 keys
      (res.1 ++ rest.1, rest.2)

/-- The positioned folder list of the layout: the top-level loop over
`folder_children[layout.root]` (`terrain.py`, lines 258–261). -/
def positionedFoldersOf (layout : FilesystemLayout) : List Folder :=
  let topLevel := folderChildren layout layout.root
  (enumMap (fun i f =>
    positionRec layout (maxContents layout) (defaultFuel layout) f ⟨0.0, 0.0, 0.0⟩
      i topLevel.length layout.root) 0 topLevel).flatten

/-- The final `folder_positions` dict as a lookup function: positions recorded
during the recursion (last write wins), with the root pre-seeded at the
origin (`terrain.py`, lines 203–206 and 238). -/
def folderPositionsMap (layout : FilesystemLayout) (p : String) : Option Position :=
  match (positionedFoldersOf layout).reverse.find? (fun f => f.path = p) with
  | some f => f.position
  | none => if p = layout.root then some ⟨0.0, 0.0, 0.0⟩ else none

/-- `calculate_positions_for_layout` (`terrain.py`, lines 158–302).  `amb` is
the state of the global `random` generator when the function is entered. -/
def calculate_positions_for_layout (amb : PRNGState) (layout : FilesystemLayout) :
    FilesystemLayout :=
  { root := layout.root,
    folders := positionedFoldersOf layout,
    files := (position_all_files layout (folderPositionsMap layout) amb
      (fileFolderKeys layout.files)).1,
    scanned_at := layout.scanned_at }

/-! ## Agent state and hook-event schemas (`app/schemas/events.py`,
`app/services/agent.py`) -/

/-- `AgentState` (`agent.py`, lines 108–121). -/
structure AgentState where
  agent_id : String
  position : Position
  current_action : Option String
  target_path : Option String
  thought : Option String

/-- `AgentState.__init__`: position at the origin, everything else unset. -/
def initialAgentState (agent_id : String) : AgentState :=
  { agent_id := agent_id, position := ⟨0.0, 0.0, 0.0⟩, current_action := none,
    target_path := none, thought := none }

/-- `HookEvent` (`app/schemas/events.py`).  The open `tool_input` map is
modelled as an association list of string keys and string values. -/
structure HookEvent where
  session_id : String
  hook_event_name : String
  tool_name : Option String := none
  tool_input : Option (List (String × String)) := none
  cwd : Option String := none

/-- `AgentEvent` (`app/schemas/events.py`). -/
structure AgentEvent where
  agent_id : String
  event_type : String
  target_path : Option String
  target_position : Option Position
  thought : Option String
  tool_name : Option String
  timestamp : Int

/-- The outbound `(message_type, message_data)` pairs produced by the event
handlers, as a tagged variant. -/
inductive Notification where
  | terrain_loading (session_id cwd message : String)
  | filesystem (layout : FilesystemLayout)
  | terrain_complete (session_id : String) (folder_count file_count : Nat)
  | agent_spawn (agent_id : String) (position : Position) (color : String)
  | agent_despawn (agent_id : String)
  | agent_event (e : AgentEvent)

/-- `tool_input.get(key)` on the modelled dict. -/
def dictGet (d : List (String × String)) (key : String) : Option String :=
  (d.find? (fun kv => kv.1 = key)).map (fun kv => kv.2)

/-- `extract_file_path` (`agent.py`, lines 124–150): `Read`/`Write`/`Edit`
read `file_path`, `Grep`/`Glob` read `path`, every other tool yields no path;
a falsy (empty) input yields no path. -/
def extract_file_path (tool_name : String) (tool_input : List (String × String)) :
    Option String :=
  if tool_input.isEmpty then none
  else if tool_name = "Read" ∨ tool_name = "Write" ∨ tool_name = "Edit" then
    dictGet tool_input "file_path"
  else if tool_name = "Grep" ∨ tool_name = "Glob" then
    dictGet tool_input "path"
  else none

/-- `Path(p).name`: the last path segment (empty and `"."` segments are not
names). -/
def baseName (p : String) : String :=
  (((p.splitOn "/").filter (fun s => ¬(s = "" ∨ s = "."))).getLastD "")

/-- `generate_thought` (`agent.py`, lines 153–202).  A falsy (empty) input,
a missing or empty parameter, and an unrecognized tool name all fall back to
`"Using {toolName}"`. -/
def generate_thought (tool_name : String) (tool_input : List (String × String)) :
    String :=
  if tool_input.isEmpty then "Using " ++ tool_name
  else if tool_name = "Read" then
    match dictGet tool_input "file_path" with
    | some fp => if fp = "" then "Using " ++ tool_name else "Reading " ++ baseName fp
    | none => "Using " ++ tool_name
  else if tool_name = "Write" then
    match dictGet tool_input "file_path" with
    | some fp => if fp = "" then "Using " ++ tool_name else "Writing " ++ baseName fp
    | none => "Using " ++ tool_name
  else if tool_name = "Edit" then
    match dictGet tool_input "file_path" with
    | some fp => if fp = "" then "Using " ++ tool_name else "Editing " ++ baseName fp
    | none => "Using " ++ tool_name
  else if tool_name = "Bash" then
    match dictGet tool_input "command" with
    | some c => if c = "" then "Using " ++ tool_name else "Running: " ++ c
    | none => "Using " ++ tool_name
  else if tool_name = "Grep" then
    match dictGet tool_input "pattern" with
    | some pat => if pat = "" then "Using " ++ tool_name else "Searching for: " ++ pat
    | none => "Using " ++ tool_name
  else if tool_name = "Glob" then
    match dictGet tool_input "pattern" with
    | some pat => if pat = "" then "Using " ++ tool_name else "Finding: " ++ pat
    | none => "Using " ++ tool_name
  else "Using " ++ tool_name

/-- `AgentService` mutable state (`agent.py`, lines 217–220): the session
store, the held terrain layout, and the recorded working directory. -/
structure AgentServiceState where
  agents : List (String × AgentState)
  terrain_layout : Option FilesystemLayout
  current_cwd : Option String

/-- `AgentService.__init__`. -/
def initialService : AgentServiceState :=
  { agents := [], terrain_layout := none, current_cwd := none }

/-- Lookup in the session store. -/
def getAgent (st : AgentServiceState) (session_id : String) : Option AgentState :=
  (st.agents.find? (fun kv => kv.1 = session_id)).map (fun kv => kv.2)

/-- Store an agent state under a session id (replace if present, else
append). -/
def setAgent (st : AgentServiceState) (session_id : String) (a : AgentState) :
    AgentServiceState :=
  if st.agents.any (fun kv => kv.1 = session_id) then
    { st with agents := st.agents.map (fun kv => if kv.1 = session_id then (kv.1, a) else kv) }
  else
    { st with agents := st.agents ++ [(session_id, a)] }

/-- `get_file_position` (`agent.py`, lines 231–249): the `position` field of
the first file of the held layout whose path matches exactly (which may
itself be absent). -/
def get_file_position (st : AgentServiceState) (file_path : String) : Option Position :=
  match st.terrain_layout with
  | none => none
  | some layout =>
    match layout.files.find? (fun f => f.path = file_path) with
    | some f => f.position
    | none => none

/-- `AgentService._handle_session_start` (`agent.py`, lines 317–387).  The
filesystem scan (`scan_filesystem`, an I/O operation) is abstracted by the
`snapshot` argument: `.ok` is a successful scan, `.error` a raised
exception.  Returns the updated service state and the emitted notifications
in order. -/
def handle_session_start (snapshot : String → Except String FilesystemLayout)
    (st : AgentServiceState) (ev : HookEvent) :
    AgentServiceState × List Notification :=
  let step :=
    match ev.cwd with
    | none => (st, ([] : List Notification))
    | some cwd =>
      if cwd ≠ "" ∧ some cwd ≠ st.current_cwd then
        let loading := Notification.terrain_loading ev.session_id cwd "Creating world..."
        match snapshot cwd with
        | .ok layout =>
          ({ st with terrain_layout := some layout, current_cwd := some cwd },
           [loading, Notification.filesystem layout,
            Notification.terrain_complete ev.session_id layout.folders.length
              layout.files.length])
        | .error _ => (st, [loading])
      else (st, [])
  let st1 := step.1
  let msgs := step.2
  let agent0 := (getAgent st1 ev.session_id).getD (initialAgentState ev.session_id)
  let agent := { agent0 with position := (⟨0.0, 0.0, 0.0⟩ : Position) }
  let st2 := setAgent st1 ev.session_id agent
  (st2, msgs ++ [Notification.agent_spawn ev.session_id agent.position "#e07850"])

/-- `file_path = None; if event.tool_input: file_path = extract_file_path(
event.tool_name or "", event.tool_input)` (`agent.py`, lines 430–432): the
candidate path of a PreToolUse event. -/
def candidate_path (tool_name : Option String) :
    Option (List (String × String)) → Option String
  | none => none
  | some ti => if ti.isEmpty then none
    else extract_file_path (tool_name.getD "") ti

/-- `target_position = None; if file_path: target_position =
self.get_file_position(file_path)` (`agent.py`, lines 435–437). -/
def lookup_candidate (st : AgentServiceState) : Option String → Option Position
  | none => none
  | some fp => if fp = "" then none else get_file_position st fp

/-- `thought = None; if event.tool_name and event.tool_input: thought =
generate_thought(event.tool_name, event.tool_input)` (`agent.py`, lines
444–446): the thought attached to the emitted AgentEvent. -/
def thought_of (tool_name : Option String)
    (tool_input : Option (List (String × String))) : Option String :=
  match tool_name, tool_input with
  | some tn, some ti =>
    if tn ≠ "" ∧ ¬ti.isEmpty then some (generate_thought tn ti) else none
  | _, _ => none

/-- The agent state after `_handle_pre_tool_use`: position moved to the
resolved target when there is one (else unchanged), action set to the event
type, target path and thought recorded. -/
def pre_tool_agent (st : AgentServiceState) (ev : HookEvent) : AgentState :=
  let agent0 := (getAgent st ev.session_id).getD (initialAgentState ev.session_id)
  let target_position := lookup_candidate st (candidate_path ev.tool_name ev.tool_input)
  { agent_id := agent0.agent_id,
    position := target_position.getD agent0.position,
    current_action := some (if target_position.isSome then "move" else "think"),
    target_path := candidate_path ev.tool_name ev.tool_input,
    thought := thought_of ev.tool_name ev.tool_input }

/-- The AgentEvent emitted by `_handle_pre_tool_use` (`agent.py`, lines
463–471). -/
def pre_tool_event (now : Int) (st : AgentServiceState) (ev : HookEvent) : AgentEvent :=
  { agent_id := ev.session_id,
    event_type := if (lookup_candidate st (candidate_path ev.tool_name ev.tool_input)).isSome
      then "move" else "think",
    target_path := candidate_path ev.tool_name ev.tool_input,
    target_position := lookup_candidate st (candidate_path ev.tool_name ev.tool_input),
    thought := thought_of ev.tool_name ev.tool_input,
    tool_name := ev.tool_name,
    timestamp := now }

/-- `AgentService._handle_pre_tool_use` (`agent.py`, lines 415–476).  `now`
is the millisecond timestamp taken from the clock.  Returns the updated
service state and the single emitted notification. -/
def handle_pre_tool_use (now : Int) (st : AgentServiceState) (ev : HookEvent) :
    AgentServiceState × Notification :=
  (setAgent st ev.session_id (pre_tool_agent st ev),
   Notification.agent_event (pre_tool_event now st ev))

end

/-! ## Basic lemmas: parent paths shorten, filters shrink -/

theorem length_dropWhile_le (p : α → Bool) (l : List α) :
    (l.dropWhile p).length ≤ l.length := by
  induction l with
  | nil => simp
  | cons a l ih => by_cases h : p a <;> simp [List.dropWhile, h] <;> omega

/-- A nonempty raw parent is strictly shorter than the path. -/
theorem rawParent_length_lt {p : String} (h : rawParent p ≠ "") :
    (rawParent p).length < p.length := by
  by_cases hc : p.data.contains '/'
  · have he : rawParent p
        = String.mk ((p.data.reverse.dropWhile (fun c => c ≠ '/')).tail.reverse) := by
      unfold rawParent
      rw [if_pos hc]
    rw [he]
    show ((p.data.reverse.dropWhile (fun c => c ≠ '/')).tail.reverse).length < p.data.length
    have h1 : ((p.data.reverse.dropWhile (fun c => c ≠ '/')).tail).length
        ≤ p.data.length - 1 := by
      have h2 := length_dropWhile_le (fun c : Char => c ≠ '/') p.data.reverse
      rw [List.length_reverse] at h2
      rw [List.length_tail]
      omega
    have h3 : p.data ≠ [] := by
      intro he2
      rw [he2] at hc
      simp [List.contains] at hc
    have h4 : 0 < p.data.length := List.length_pos.mpr h3
    rw [List.length_reverse]
    omega
  · exfalso
    apply h
    unfold rawParent
    rw [if_neg hc]

/-- Any derived parent is either the root or a strictly shorter nonempty
path. -/
theorem derivedParent_cases (root p : String) :
    derivedParent root p = root ∨
      (derivedParent root p ≠ "" ∧ (derivedParent root p).length < p.length) := by
  unfold derivedParent
  by_cases h : rawParent p = ""
  · left; simp [h]
  · right
    simp only [h, if_neg]
    exact ⟨h, rawParent_length_lt h⟩

theorem length_filter_mono {l : List α} {p q : α → Bool}
    (h : ∀ a ∈ l, p a = true → q a = true) :
    (l.filter p).length ≤ (l.filter q).length := by
  induction l with
  | nil => simp
  | cons a l ih =>
    have ih2 := ih (fun b hb hpb => h b (List.mem_cons_of_mem a hb) hpb)
    by_cases hp : p a
    · have hq := h a (List.mem_cons_self a l) hp
      simp [List.filter, hp, hq]
      omega
    · by_cases hq : q a <;> simp [List.filter, hp, hq] <;> omega

theorem length_filter_strict {l : List α} {p q : α → Bool}
    (h : ∀ a ∈ l, p a = true → q a = true) {b : α} (hb : b ∈ l)
    (hqb : q b = true) (hpb : p b ≠ true) :
    (l.filter p).length < (l.filter q).length := by
  induction l with
  | nil => simp at hb
  | cons a l ih =>
    have hmono : (l.filter p).length ≤ (l.filter q).length :=
      length_filter_mono (fun c hc hpc => h c (List.mem_cons_of_mem a hc) hpc)
    rcases List.mem_cons.mp hb with rfl | hbl
    · have hpa : p b ≠ true := hpb
      by_cases hp : p b
      · exact absurd hp hpa
      · simp [List.filter, hp, hqb]
        omega
    · have ih2 := ih (fun c hc hpc => h c (List.mem_cons_of_mem a hc) hpc) hbl
      by_cases hp : p a
      · have hq := h a (List.mem_cons_self a l) hp
        simp [List.filter, hp, hq]
        omega
      · by_cases hq : q a <;> simp [List.filter, hp, hq] <;> omega

/-! ## The termination measure of the folder recursions

Under the (always true for scanned snapshots) assumption that the snapshot
root is not itself a folder path, every derived child of a folder path is a
strictly longer string, so the number of folders with strictly longer paths
is a measure that decreases from parent to child.  This bounds the recursion
depth of `calculate_total_contents` and `position_folder_and_children` by
the number of folders, and shows the default fuel is never exhausted. -/

/-- The folder paths of a layout. -/
def folderPaths (layout : FilesystemLayout) : List String :=
  layout.folders.map Folder.path

/-- The snapshot root does not itself occur among the folder paths (true of
every layout produced by `scan_filesystem`, whose folders lie strictly below
the root). -/
def RootNotFolder (layout : FilesystemLayout) : Prop :=
  layout.root ∉ folderPaths layout

/-- Number of folders with a strictly longer path than `p`. -/
def sizeAbove (layout : FilesystemLayout) (p : String) : Nat :=
  (layout.folders.filter (fun g => decide (p.length < g.path.length))).length

theorem mem_folderChildren {layout : FilesystemLayout} {p : String} {c : Folder} :
    c ∈ folderChildren layout p ↔
      c ∈ layout.folders ∧ derivedParent layout.root c.path = p := by
  simp [folderChildren, List.mem_filter]

theorem mem_folderPaths_of_mem {layout : FilesystemLayout} {f : Folder}
    (h : f ∈ layout.folders) : f.path ∈ folderPaths layout :=
  List.mem_map_of_mem Folder.path h

/-- A derived child of a folder path is a strictly longer string. -/
theorem child_path_longer {layout : FilesystemLayout}
    (hroot : RootNotFolder layout) {p : String} (hp : p ∈ folderPaths layout)
    {c : Folder} (hc : c ∈ folderChildren layout p) :
    p.length < c.path.length := by
  obtain ⟨hcf, hparent⟩ := mem_folderChildren.mp hc
  rcases derivedParent_cases layout.root c.path with h | ⟨_, hlen⟩
  · rw [hparent] at h
    exact absurd (h ▸ hp) hroot
  · rw [hparent] at hlen
    exact hlen

theorem sizeAbove_le {layout : FilesystemLayout} (p : String) :
    sizeAbove layout p ≤ layout.folders.length :=
  List.length_filter_le _ _

theorem sizeAbove_lt_defaultFuel (layout : FilesystemLayout) (p : String) :
    sizeAbove layout p < defaultFuel layout :=
  Nat.lt_succ_of_le (sizeAbove_le p)

/-- The measure strictly decreases from a folder path to its derived
children. -/
theorem sizeAbove_child_lt {layout : FilesystemLayout}
    (hroot : RootNotFolder layout) {p : String} (hp : p ∈ folderPaths layout)
    {c : Folder} (hc : c ∈ folderChildren layout p) :
    sizeAbove layout c.path < sizeAbove layout p := by
  have hlonger := child_path_longer hroot hp hc
  have hcf : c ∈ layout.folders := (mem_folderChildren.mp hc).1
  exact length_filter_strict
    (fun g _ hg => by
      simp only [decide_eq_true_eq] at hg ⊢
      omega)
    hcf (by simpa using hlonger) (by simp)

/-- `calculate_total_contents` does not depend on the fuel once the fuel
exceeds the measure of the starting path. -/
theorem ctc_fuel_congr {layout : FilesystemLayout} (hroot : RootNotFolder layout) :
    ∀ (N fuel1 fuel2 : Nat) (p : String), p ∈ folderPaths layout →
      sizeAbove layout p < N → sizeAbove layout p < fuel1 →
      sizeAbove layout p < fuel2 →
      calculate_total_contents layout fuel1 p = calculate_total_contents layout fuel2 p := by
  intro N
  induction N with
  | zero => intro fuel1 fuel2 p _ hN _ _; omega
  | succ N ih =>
    intro fuel1 fuel2 p hp hN h1 h2
    obtain ⟨a, rfl⟩ : ∃ a, fuel1 = a + 1 := ⟨fuel1 - 1, by omega⟩
    obtain ⟨b, rfl⟩ : ∃ b, fuel2 = b + 1 := ⟨fuel2 - 1, by omega⟩
    show (filesByFolder layout p).length + (folderChildren layout p).length
        + ((folderChildren layout p).map
            (fun c => calculate_total_contents layout a c.path)).sum
      = (filesByFolder layout p).length + (folderChildren layout p).length
        + ((folderChildren layout p).map
            (fun c => calculate_total_contents layout b c.path)).sum
    have hmap : (folderChildren layout p).map
          (fun c => calculate_total_contents layout a c.path)
        = (folderChildren layout p).map
          (fun c => calculate_total_contents layout b c.path) := by
      apply List.map_congr_left
      intro c hc
      have hclt := sizeAbove_child_lt hroot hp hc
      exact ih a b c.path
        (mem_folderPaths_of_mem (mem_folderChildren.mp hc).1)
        (by omega) (by omega) (by omega)
    rw [hmap]

/-- The recursive-total-contents recurrence, at the default fuel: direct
files + direct subfolders + recursive totals of the subfolders. -/
theorem totalContentsOf_eq {layout : FilesystemLayout} (hroot : RootNotFolder layout)
    {p : String} (hp : p ∈ folderPaths layout) :
    totalContentsOf layout p
      = (filesByFolder layout p).length + (folderChildren layout p).length
        + ((folderChildren layout p).map
            (fun c => totalContentsOf layout c.path)).sum := by
  show calculate_total_contents layout (layout.folders.length + 1) p = _
  have hstep : calculate_total_contents layout (layout.folders.length + 1) p
      = (filesByFolder layout p).length + (folderChildren layout p).length
        + ((folderChildren layout p).map
            (fun c => calculate_total_contents layout layout.folders.length c.path)).sum := rfl
  rw [hstep]
  congr 2
  apply List.map_congr_left
  intro c hc
  have hclt := sizeAbove_child_lt hroot hp hc
  have hle := @sizeAbove_le layout p
  exact ctc_fuel_congr hroot (layout.folders.length + 1) layout.folders.length
    (defaultFuel layout) c.path
    (mem_folderPaths_of_mem (mem_folderChildren.mp hc).1)
    (by omega) (by omega) (sizeAbove_lt_defaultFuel layout c.path)

/-! ## `enumMap` lemmas -/

theorem enumMap_congr {α β : Type _} {f g : Nat → α → β} {l : List α}
    (h : ∀ j a, a ∈ l → f j a = g j a) :
    ∀ j0, enumMap f j0 l = enumMap g j0 l := by
  induction l with
  | nil => intro j0; rfl
  | cons a l ih =>
    intro j0
    show f j0 a :: enumMap f (j0 + 1) l = g j0 a :: enumMap g (j0 + 1) l
    rw [h j0 a (List.mem_cons_self a l),
      ih (fun j b hb => h j b (List.mem_cons_of_mem a hb)) (j0 + 1)]

theorem mem_enumMap {α β : Type _} {f : Nat → α → β} {b : β} :
    ∀ {j0 : Nat} {l : List α},
      b ∈ enumMap f j0 l ↔ ∃ k, ∃ hk : k < l.length, b = f (j0 + k) (l.get ⟨k, hk⟩) := by
  intro j0 l
  induction l generalizing j0 with
  | nil => simp [enumMap]
  | cons a l ih =>
    show b ∈ f j0 a :: enumMap f (j0 + 1) l ↔ _
    simp only [List.mem_cons, ih]
    constructor
    · rintro (rfl | ⟨k, hk, rfl⟩)
      · exact ⟨0, by simp, by simp⟩
      · exact ⟨k + 1, by simpa using hk, by simp [Nat.add_assoc, Nat.add_comm 1 k]⟩
    · rintro ⟨k, hk, rfl⟩
      match k with
      | 0 => exact Or.inl (by simp)
      | k + 1 =>
        refine Or.inr ⟨k, by simpa using hk, ?_⟩
        simp [Nat.add_assoc, Nat.add_comm 1 k]

/-! ## Fuel invariance and unfolding of the folder-positioning recursion -/

theorem positionRec_succ (layout : FilesystemLayout) (maxC fuel : Nat)
    (folder : Folder) (pp : Position) (i n : Nat) (pa : String) :
    positionRec layout maxC (fuel + 1) folder pp i n pa
      = mkPositioned layout maxC folder (place_position folder pp i n) ::
        (enumMap (fun j c => positionRec layout maxC fuel c
            (place_position folder pp i n) j
            (folderChildren layout folder.path).length folder.path)
          0 (folderChildren layout folder.path)).flatten := rfl

theorem positionRec_fuel_congr {layout : FilesystemLayout} {maxC : Nat}
    (hroot : RootNotFolder layout) :
    ∀ (N fuel1 fuel2 : Nat) (folder : Folder) (pp : Position) (i n : Nat) (pa : String),
      folder ∈ layout.folders →
      sizeAbove layout folder.path < N → sizeAbove layout folder.path < fuel1 →
      sizeAbove layout folder.path < fuel2 →
      positionRec layout maxC fuel1 folder pp i n pa
        = positionRec layout maxC fuel2 folder pp i n pa := by
  intro N
  induction N with
  | zero => intro fuel1 fuel2 folder pp i n pa _ hN _ _; omega
  | succ N ih =>
    intro fuel1 fuel2 folder pp i n pa hf hN h1 h2
    obtain ⟨a, rfl⟩ : ∃ a, fuel1 = a + 1 := ⟨fuel1 - 1, by omega⟩
    obtain ⟨b, rfl⟩ : ∃ b, fuel2 = b + 1 := ⟨fuel2 - 1, by omega⟩
    rw [positionRec_succ, positionRec_succ]
    congr 2
    apply enumMap_congr
    intro j c hc
    have hclt := sizeAbove_child_lt hroot (mem_folderPaths_of_mem hf) hc
    exact ih a b c (place_position folder pp i n) j
      (folderChildren layout folder.path).length folder.path
      (mem_folderChildren.mp hc).1 (by omega) (by omega) (by omega)

/-! ## Call contexts of `position_folder_and_children`

`CallCtx layout f pp i n pa` holds exactly when the recursion started by
`calculate_positions_for_layout` performs (fuel permitting) a call
`position_folder_and_children(f, pp, i, n, pa)`. -/

inductive CallCtx (layout : FilesystemLayout) : Folder → Position → Nat → Nat → String → Prop where
  | top (i : Nat) (hi : i < (folderChildren layout layout.root).length) :
      CallCtx layout ((folderChildren layout layout.root).get ⟨i, hi⟩)
        ⟨0.0, 0.0, 0.0⟩ i (folderChildren layout layout.root).length layout.root
  | child {f : Folder} {pp : Position} {i n : Nat} {pa : String}
      (hctx : CallCtx layout f pp i n pa) (j : Nat)
      (hj : j < (folderChildren layout f.path).length) :
      CallCtx layout ((folderChildren layout f.path).get ⟨j, hj⟩)
        (place_position f pp i n) j (folderChildren layout f.path).length f.path

theorem CallCtx.mem_folders {layout : FilesystemLayout} {f : Folder} {pp : Position}
    {i n : Nat} {pa : String} (h : CallCtx layout f pp i n pa) : f ∈ layout.folders := by
  cases h with
  | top i hi => exact (mem_folderChildren.mp (List.get_mem _ _ _)).1
  | child hctx j hj => exact (mem_folderChildren.mp (List.get_mem _ _ _)).1

/-- In every call context, the folder is the `i`-th of the `n` children of
the bucket keyed by the parent path. -/
theorem CallCtx.shape {layout : FilesystemLayout} {f : Folder} {pp : Position}
    {i n : Nat} {pa : String} (h : CallCtx layout f pp i n pa) :
    ∃ hi : i < (folderChildren layout pa).length,
      f = (folderChildren layout pa).get ⟨i, hi⟩ ∧
      n = (folderChildren layout pa).length := by
  cases h with
  | top i hi => exact ⟨hi, rfl, rfl⟩
  | child hctx j hj => exact ⟨hj, rfl, rfl⟩

theorem CallCtx.derivedParent_eq {layout : FilesystemLayout} {f : Folder} {pp : Position}
    {i n : Nat} {pa : String} (h : CallCtx layout f pp i n pa) :
    derivedParent layout.root f.path = pa := by
  obtain ⟨hi, hf, -⟩ := h.shape
  have : (folderChildren layout pa).get ⟨i, hi⟩ ∈ folderChildren layout pa :=
    List.get_mem _ _ _
  rw [hf]
  exact (mem_folderChildren.mp this).2

/-- Every record emitted by the recursion comes from a call context and is
the positioned record of that context. -/
theorem positionRec_sound {layout : FilesystemLayout} {maxC : Nat} :
    ∀ (fuel : Nat) (f : Folder) (pp : Position) (i n : Nat) (pa : String),
      CallCtx layout f pp i n pa →
      ∀ pf ∈ positionRec layout maxC fuel f pp i n pa,
        ∃ f' pp' i' n' pa', CallCtx layout f' pp' i' n' pa' ∧
          pf = mkPositioned layout maxC f' (place_position f' pp' i' n') := by
  intro fuel
  induction fuel with
  | zero => intro f pp i n pa _ pf hpf; simp [positionRec] at hpf
  | succ fuel ih =>
    intro f pp i n pa hctx pf hpf
    rw [positionRec_succ] at hpf
    rcases List.mem_cons.mp hpf with rfl | hpf
    · exact ⟨f, pp, i, n, pa, hctx, rfl⟩
    · obtain ⟨sub, hsub, hpfsub⟩ := List.mem_flatten.mp hpf
      obtain ⟨k, hk, rfl⟩ := mem_enumMap.mp hsub
      simp only [Nat.zero_add] at hpfsub
      exact ih _ _ _ _ _ (CallCtx.child hctx k hk) pf hpfsub

/-- Membership description of the top-level positioned folder list. -/
theorem mem_positionedFoldersOf {layout : FilesystemLayout} {pf : Folder} :
    pf ∈ positionedFoldersOf layout ↔
      ∃ k, ∃ hk : k < (folderChildren layout layout.root).length,
        pf ∈ positionRec layout (maxContents layout) (defaultFuel layout)
          ((folderChildren layout layout.root).get ⟨k, hk⟩) ⟨0.0, 0.0, 0.0⟩ k
          (folderChildren layout layout.root).length layout.root := by
  show pf ∈ (enumMap _ 0 _).flatten ↔ _
  rw [List.mem_flatten]
  constructor
  · rintro ⟨sub, hsub, hpf⟩
    obtain ⟨k, hk, rfl⟩ := mem_enumMap.mp hsub
    exact ⟨k, hk, by simpa using hpf⟩
  · rintro ⟨k, hk, hpf⟩
    refine ⟨_, mem_enumMap.mpr ⟨k, hk, rfl⟩, by simpa using hpf⟩

/-- Every folder record of the positioned output comes from a call context. -/
theorem positionedFoldersOf_sound {layout : FilesystemLayout} {pf : Folder}
    (h : pf ∈ positionedFoldersOf layout) :
    ∃ f pp i n pa, CallCtx layout f pp i n pa ∧
      pf = mkPositioned layout (maxContents layout) f (place_position f pp i n) := by
  obtain ⟨k, hk, hpf⟩ := mem_positionedFoldersOf.mp h
  exact positionRec_sound _ _ _ _ _ _ (CallCtx.top k hk) pf hpf

/-- Completeness: with the default fuel, the full subtree of every reached
call is part of the output. -/
theorem positionRec_subset_out {layout : FilesystemLayout}
    (hroot : RootNotFolder layout) {f : Folder} {pp : Position} {i n : Nat} {pa : String}
    (hctx : CallCtx layout f pp i n pa) :
    ∀ pf ∈ positionRec layout (maxContents layout) (defaultFuel layout) f pp i n pa,
      pf ∈ positionedFoldersOf layout := by
  induction hctx with
  | top k hk =>
    intro pf hpf
    exact mem_positionedFoldersOf.mpr ⟨k, hk, hpf⟩
  | child hctx j hj ih =>
    rename_i f pp i n pa
    intro pf hpf
    apply ih
    show pf ∈ positionRec layout (maxContents layout) (defaultFuel layout) f pp i n pa
    have hd : defaultFuel layout = layout.folders.length + 1 := rfl
    rw [hd, positionRec_succ]
    apply List.mem_cons_of_mem
    apply List.mem_flatten.mpr
    refine ⟨_, mem_enumMap.mpr ⟨j, hj, rfl⟩, ?_⟩
    simp only [Nat.zero_add]
    set c := (folderChildren layout f.path).get ⟨j, hj⟩ with hc
    have hcmem : c ∈ folderChildren layout f.path := List.get_mem _ _ _
    have hcfold : c ∈ layout.folders := (mem_folderChildren.mp hcmem).1
    have hfmem : f ∈ layout.folders := hctx.mem_folders
    have hlt : sizeAbove layout c.path < sizeAbove layout f.path :=
      sizeAbove_child_lt hroot (mem_folderPaths_of_mem hfmem) hcmem
    have hle : sizeAbove layout f.path ≤ layout.folders.length := sizeAbove_le _
    rw [positionRec_fuel_congr hroot (layout.folders.length + 1) layout.folders.length
      (defaultFuel layout) c (place_position f pp i n) j
      (folderChildren layout f.path).length f.path hcfold (by omega) (by omega)
      (sizeAbove_lt_defaultFuel layout c.path)]
    exact hpf

/-- Every call context's positioned record is in the output. -/
theorem CallCtx.record_mem {layout : FilesystemLayout}
    (hroot : RootNotFolder layout) {f : Folder} {pp : Position} {i n : Nat} {pa : String}
    (hctx : CallCtx layout f pp i n pa) :
    mkPositioned layout (maxContents layout) f (place_position f pp i n)
      ∈ positionedFoldersOf layout := by
  apply positionRec_subset_out hroot hctx
  have hd : defaultFuel layout = layout.folders.length + 1 := rfl
  rw [hd, positionRec_succ]
  exact List.mem_cons_self _ _

/-! ## Reachability through derived parent chains

A folder is reachable when its chain of derived parent paths reaches the
snapshot root through folders present in the snapshot — exactly the folders
the recursion of `calculate_positions_for_layout` visits. -/

inductive Reachable (layout : FilesystemLayout) : Folder → Prop where
  | base {f : Folder} (hf : f ∈ layout.folders)
      (h : derivedParent layout.root f.path = layout.root) : Reachable layout f
  | step {f g : Folder} (hf : f ∈ layout.folders) (hg : Reachable layout g)
      (h : derivedParent layout.root f.path = g.path) : Reachable layout f

theorem Reachable.folder_mem {layout : FilesystemLayout} {f : Folder}
    (h : Reachable layout f) : f ∈ layout.folders := by
  cases h with
  | base hf _ => exact hf
  | step hf _ _ => exact hf

/-- Call contexts only reach reachable folders. -/
theorem CallCtx.reachable {layout : FilesystemLayout} {f : Folder} {pp : Position}
    {i n : Nat} {pa : String} (h : CallCtx layout f pp i n pa) : Reachable layout f := by
  induction h with
  | top i hi =>
    have hmem := (mem_folderChildren.mp
      (List.get_mem (folderChildren layout layout.root) i hi))
    exact Reachable.base hmem.1 hmem.2
  | child hctx j hj ih =>
    have hmem := (mem_folderChildren.mp
      (List.get_mem (folderChildren layout _) j hj))
    exact Reachable.step hmem.1 ih hmem.2

/-- Every reachable folder is reached by some call. -/
theorem Reachable.callCtx {layout : FilesystemLayout} {f : Folder}
    (h : Reachable layout f) :
    ∃ pp i n pa, CallCtx layout f pp i n pa := by
  induction h with
  | base hf hpar =>
    rename_i f
    have hmem : f ∈ folderChildren layout layout.root :=
      mem_folderChildren.mpr ⟨hf, hpar⟩
    obtain ⟨⟨k, hk⟩, hget⟩ := List.mem_iff_get.mp hmem
    exact ⟨_, _, _, _, hget ▸ CallCtx.top k hk⟩
  | step hf hg hpar ih =>
    rename_i f g
    obtain ⟨pp, i, n, pa, hctx⟩ := ih
    have hmem : f ∈ folderChildren layout g.path :=
      mem_folderChildren.mpr ⟨hf, hpar⟩
    obtain ⟨⟨k, hk⟩, hget⟩ := List.mem_iff_get.mp hmem
    exact ⟨_, _, _, _, hget ▸ CallCtx.child hctx k hk⟩

/-! ## Descendant chains and disjointness of sibling subtrees -/

/-- `DescPath layout top q`: the chain of derived parents starting at `q`
(through folder paths) reaches `top`. -/
inductive DescPath (layout : FilesystemLayout) (top : String) : String → Prop where
  | refl : DescPath layout top top
  | step {q : String} (hq : q ∈ folderPaths layout)
      (h : DescPath layout top (derivedParent layout.root q)) : DescPath layout top q

theorem DescPath.trans {layout : FilesystemLayout} {a b q : String}
    (hab : DescPath layout a b) (hbq : DescPath layout b q) :
    DescPath layout a q := by
  induction hbq with
  | refl => exact hab
  | step hq _ ih => exact DescPath.step hq ih

/-- No descent chain from a non-root folder path reaches the root path. -/
theorem descPath_root_false {layout : FilesystemLayout} (hroot : RootNotFolder layout)
    {a : String} (ha : a ∈ folderPaths layout) :
    ¬ DescPath layout a layout.root := by
  intro h
  cases h with
  | refl => exact hroot ha
  | step hq _ => exact hroot hq

/-- Descent chains only lengthen paths. -/
theorem descPath_length {layout : FilesystemLayout} (hroot : RootNotFolder layout)
    {a : String} (ha : a ∈ folderPaths layout) {q : String}
    (h : DescPath layout a q) : a = q ∨ a.length < q.length := by
  induction h with
  | refl => exact Or.inl rfl
  | step hq hchain ih =>
    rename_i q
    have hane : a ≠ layout.root := fun he => hroot (he ▸ ha)
    rcases derivedParent_cases layout.root q with hdp | ⟨_, hdplen⟩
    · exfalso
      rw [hdp] at hchain
      exact descPath_root_false hroot ha hchain
    · rcases ih with he | hlt
      · right
        rw [← he] at hdplen
        exact hdplen
      · right
        omega

/-- Subtrees of two distinct siblings (same derived parent path) are
disjoint. -/
theorem desc_disjoint {layout : FilesystemLayout} (hroot : RootNotFolder layout)
    {c1 c2 : String} (h1 : c1 ∈ folderPaths layout) (h2 : c2 ∈ folderPaths layout)
    (hP : derivedParent layout.root c1 = derivedParent layout.root c2)
    (hne : c1 ≠ c2) :
    ∀ q, DescPath layout c1 q → DescPath layout c2 q → False := by
  have key : ∀ (x y : String), x ∈ folderPaths layout → y ∈ folderPaths layout →
      derivedParent layout.root x = derivedParent layout.root y →
      ¬ DescPath layout y (derivedParent layout.root x) := by
    intro x y hx hy hxy hdesc
    rw [hxy] at hdesc
    have hyne : y ≠ layout.root := fun he => hroot (he ▸ hy)
    rcases derivedParent_cases layout.root y with hdp | ⟨_, hdplen⟩
    · rw [hdp] at hdesc
      exact descPath_root_false hroot hy hdesc
    · rcases descPath_length hroot hy hdesc with he | hlt
      · rw [← he] at hdplen
        omega
      · omega
  intro q hq1 hq2
  induction hq1 with
  | refl =>
    cases hq2 with
    | refl => exact hne rfl
    | step hq hchain => exact key c1 c2 h1 h2 hP hchain
  | step hq hchain ih =>
    rename_i q
    cases hq2 with
    | refl => exact key c2 c1 h2 h1 hP.symm hchain
    | step hq2q hchain2 => exact ih hchain2

/-- Every record emitted by a call at `f` has a path whose descent chain
reaches `f.path`, and that path is a folder path. -/
theorem positionRec_desc {layout : FilesystemLayout} {maxC : Nat} :
    ∀ (fuel : Nat) (f : Folder) (pp : Position) (i n : Nat) (pa : String),
      f ∈ layout.folders →
      ∀ pf ∈ positionRec layout maxC fuel f pp i n pa,
        DescPath layout f.path pf.path ∧ pf.path ∈ folderPaths layout := by
  intro fuel
  induction fuel with
  | zero => intro f pp i n pa _ pf hpf; simp [positionRec] at hpf
  | succ fuel ih =>
    intro f pp i n pa hf pf hpf
    rw [positionRec_succ] at hpf
    rcases List.mem_cons.mp hpf with rfl | hpf
    · exact ⟨DescPath.refl, show f.path ∈ folderPaths layout from mem_folderPaths_of_mem hf⟩
    · obtain ⟨sub, hsub, hpfsub⟩ := List.mem_flatten.mp hpf
      obtain ⟨k, hk, rfl⟩ := mem_enumMap.mp hsub
      set c := (folderChildren layout f.path).get ⟨k, hk⟩ with hc
      have hcmem : c ∈ folderChildren layout f.path := List.get_mem _ _ _
      have hcf : c ∈ layout.folders := (mem_folderChildren.mp hcmem).1
      obtain ⟨hdesc, hfp⟩ := ih c _ _ _ _ hcf pf hpfsub
      refine ⟨DescPath.trans ?_ hdesc, hfp⟩
      exact DescPath.step (mem_folderPaths_of_mem hcf)
        ((mem_folderChildren.mp hcmem).2 ▸ DescPath.refl)

/-! ## No folder is emitted twice -/

/-- Concatenating the outputs of sibling calls keeps folder paths
duplicate-free: sibling subtrees are disjoint. -/
theorem flattenCallsNodup {layout : FilesystemLayout} (hroot : RootNotFolder layout) :
    ∀ (cs : List Folder) (j0 : Nat) (g : Nat → Folder → List Folder),
      (∀ j c, c ∈ cs → ∀ pf ∈ g j c, DescPath layout c.path pf.path) →
      (∀ j c, c ∈ cs → ((g j c).map Folder.path).Nodup) →
      (cs.map Folder.path).Nodup →
      (∀ c ∈ cs, c ∈ layout.folders) →
      (∀ c1 c2, c1 ∈ cs → c2 ∈ cs →
        derivedParent layout.root c1.path = derivedParent layout.root c2.path) →
      (((enumMap g j0 cs).flatten).map Folder.path).Nodup := by
  intro cs
  induction cs with
  | nil => intro j0 g _ _ _ _ _; simp [enumMap]
  | cons c cs ih =>
    intro j0 g hdesc hnodupg hnodupcs hmem hsib
    show (((g j0 c :: enumMap g (j0 + 1) cs).flatten).map Folder.path).Nodup
    rw [List.flatten_cons, List.map_append]
    apply List.Nodup.append
    · exact hnodupg j0 c (List.mem_cons_self c cs)
    · exact ih (j0 + 1) g
        (fun j d hd => hdesc j d (List.mem_cons_of_mem c hd))
        (fun j d hd => hnodupg j d (List.mem_cons_of_mem c hd))
        ((List.nodup_cons.mp hnodupcs).2)
        (fun d hd => hmem d (List.mem_cons_of_mem c hd))
        (fun d1 d2 hd1 hd2 =>
          hsib d1 d2 (List.mem_cons_of_mem c hd1) (List.mem_cons_of_mem c hd2))
    · intro a ha ha2
      obtain ⟨pf, hpf, rfl⟩ := List.mem_map.mp ha
      obtain ⟨pf2, hpf2, hpatheq⟩ := List.mem_map.mp ha2
      obtain ⟨sub, hsub, hpf2sub⟩ := List.mem_flatten.mp hpf2
      obtain ⟨k, hk, rfl⟩ := mem_enumMap.mp hsub
      set c2 := cs.get ⟨k, hk⟩ with hc2
      have hc2cs : c2 ∈ cs := List.get_mem _ _ _
      have hdesc1 : DescPath layout c.path pf.path :=
        hdesc j0 c (List.mem_cons_self c cs) pf hpf
      have hdesc2 : DescPath layout c2.path pf2.path :=
        hdesc (j0 + 1 + k) c2 (List.mem_cons_of_mem c hc2cs) pf2 hpf2sub
      rw [hpatheq] at hdesc2
      have hcn1 : c ∈ layout.folders := hmem c (List.mem_cons_self c cs)
      have hcn2 : c2 ∈ layout.folders := hmem c2 (List.mem_cons_of_mem c hc2cs)
      have hnec : c.path ≠ c2.path := by
        intro he
        have h1 := (List.nodup_cons.mp hnodupcs).1
        exact h1 (he ▸ List.mem_map_of_mem Folder.path hc2cs)
      exact desc_disjoint hroot (mem_folderPaths_of_mem hcn1)
        (mem_folderPaths_of_mem hcn2)
        (hsib c c2 (List.mem_cons_self c cs) (List.mem_cons_of_mem c hc2cs))
        hnec pf.path hdesc1 hdesc2

/-- The output of a single call never emits the same folder path twice. -/
theorem positionRec_nodup {layout : FilesystemLayout} {maxC : Nat}
    (hroot : RootNotFolder layout) (hnodup : (folderPaths layout).Nodup) :
    ∀ (fuel : Nat) (f : Folder) (pp : Position) (i n : Nat) (pa : String),
      f ∈ layout.folders →
      ((positionRec layout maxC fuel f pp i n pa).map Folder.path).Nodup := by
  intro fuel
  induction fuel with
  | zero => intro f pp i n pa _; simp [positionRec]
  | succ fuel ih =>
    intro f pp i n pa hf
    rw [positionRec_succ]
    rw [List.map_cons]
    apply List.nodup_cons.mpr
    constructor
    · intro hmem
      obtain ⟨pf, hpf, hpatheq⟩ := List.mem_map.mp hmem
      obtain ⟨sub, hsub, hpfsub⟩ := List.mem_flatten.mp hpf
      obtain ⟨k, hk, rfl⟩ := mem_enumMap.mp hsub
      set c := (folderChildren layout f.path).get ⟨k, hk⟩ with hc
      have hcmem : c ∈ folderChildren layout f.path := List.get_mem _ _ _
      have hcf : c ∈ layout.folders := (mem_folderChildren.mp hcmem).1
      obtain ⟨hdesc, -⟩ := positionRec_desc fuel c _ _ _ _ hcf pf hpfsub
      have hclonger : f.path.length < c.path.length :=
        child_path_longer hroot (mem_folderPaths_of_mem hf) hcmem
      have hpatheq2 : pf.path = f.path := hpatheq
      rcases descPath_length hroot (mem_folderPaths_of_mem hcf) hdesc with he | hlt
      · rw [hpatheq2] at he
        rw [← he] at hclonger
        omega
      · rw [hpatheq2] at hlt
        omega
    · apply flattenCallsNodup hroot
      · intro j c hcmem pf hpf
        exact (positionRec_desc fuel c _ _ _ _
          (mem_folderChildren.mp hcmem).1 pf hpf).1
      · intro j c hcmem
        exact ih c _ _ _ _ (mem_folderChildren.mp hcmem).1
      · have hsub : List.Sublist ((folderChildren layout f.path).map Folder.path)
            (layout.folders.map Folder.path) :=
          (List.filter_sublist _).map Folder.path
        exact hnodup.sublist hsub
      · intro c hcmem
        exact (mem_folderChildren.mp hcmem).1
      · intro c1 c2 h1 h2
        rw [(mem_folderChildren.mp h1).2, (mem_folderChildren.mp h2).2]

/-- The positioned output as a whole never emits the same folder path
twice. -/
theorem positionedFoldersOf_nodup {layout : FilesystemLayout}
    (hroot : RootNotFolder layout) (hnodup : (folderPaths layout).Nodup) :
    ((positionedFoldersOf layout).map Folder.path).Nodup := by
  show (((enumMap _ 0 (folderChildren layout layout.root)).flatten).map Folder.path).Nodup
  apply flattenCallsNodup hroot
  · intro j c hcmem pf hpf
    exact (positionRec_desc (defaultFuel layout) c _ _ _ _
      (mem_folderChildren.mp hcmem).1 pf hpf).1
  · intro j c hcmem
    exact positionRec_nodup hroot hnodup (defaultFuel layout) c _ _ _ _
      (mem_folderChildren.mp hcmem).1
  · have hsub : List.Sublist ((folderChildren layout layout.root).map Folder.path)
        (layout.folders.map Folder.path) :=
      (List.filter_sublist _).map Folder.path
    exact hnodup.sublist hsub
  · intro c hcmem
    exact (mem_folderChildren.mp hcmem).1
  · intro c1 c2 h1 h2
    rw [(mem_folderChildren.mp h1).2, (mem_folderChildren.mp h2).2]

/-! ## The maximum of the total-contents values -/

theorem le_foldl_max_init (l : List Nat) : ∀ a, a ≤ l.foldl max a := by
  induction l with
  | nil => intro a; simp
  | cons x l ih =>
    intro a
    have h1 := ih (max a x)
    have h2 : a ≤ max a x := Nat.le_max_left a x
    calc a ≤ max a x := h2
      _ ≤ l.foldl max (max a x) := h1

theorem le_foldl_max_mem {l : List Nat} {x : Nat} (hx : x ∈ l) :
    ∀ a, x ≤ l.foldl max a := by
  induction l with
  | nil => simp at hx
  | cons y l ih =>
    intro a
    rcases List.mem_cons.mp hx with rfl | hxl
    · have h2 : x ≤ max a x := Nat.le_max_right a x
      calc x ≤ max a x := h2
        _ ≤ l.foldl max (max a x) := le_foldl_max_init l (max a x)
    · exact ih hxl (max a y)

theorem foldl_max_mem (l : List Nat) : ∀ a, l.foldl max a = a ∨ l.foldl max a ∈ l := by
  induction l with
  | nil => intro a; simp
  | cons x l ih =>
    intro a
    show l.foldl max (max a x) = a ∨ l.foldl max (max a x) ∈ x :: l
    rcases ih (max a x) with h | h
    · rcases Nat.le_total a x with hax | hxa
      · right
        rw [h, Nat.max_eq_right hax]
        exact List.mem_cons_self x l
      · left
        rw [h, Nat.max_eq_left hxa]
    · right
      exact List.mem_cons_of_mem x h

theorem maxContents_eq {layout : FilesystemLayout} (hne : layout.folders ≠ []) :
    maxContents layout
      = (layout.folders.map (fun f => totalContentsOf layout f.path)).foldl max 0 := by
  unfold maxContents
  rcases hfold : layout.folders with - | ⟨g, gs⟩
  · exact absurd hfold hne
  · rfl

/-- Every folder's recursive total is at most `maxContents`. -/
theorem totalContentsOf_le_maxContents {layout : FilesystemLayout} {f : Folder}
    (hf : f ∈ layout.folders) :
    totalContentsOf layout f.path ≤ maxContents layout := by
  rw [maxContents_eq (List.ne_nil_of_mem hf)]
  exact le_foldl_max_mem
    (List.mem_map_of_mem (fun f => totalContentsOf layout f.path) hf) 0

/-- When there are folders, `maxContents` is attained by one of them. -/
theorem maxContents_attained {layout : FilesystemLayout}
    (hne : layout.folders ≠ []) :
    ∃ f ∈ layout.folders, totalContentsOf layout f.path = maxContents layout := by
  obtain ⟨g, hg⟩ := List.exists_mem_of_ne_nil _ hne
  rcases foldl_max_mem (layout.folders.map (fun f => totalContentsOf layout f.path)) 0
    with h | h
  · refine ⟨g, hg, ?_⟩
    have hgle := le_foldl_max_mem
      (List.mem_map_of_mem (fun f => totalContentsOf layout f.path) hg) 0
    rw [maxContents_eq hne, h]
    rw [h] at hgle
    have hgle2 : totalContentsOf layout g.path ≤ 0 := hgle
    omega
  · obtain ⟨f, hf, hfeq⟩ := List.mem_map.mp h
    refine ⟨f, hf, ?_⟩
    rw [maxContents_eq hne, ← hfeq]

/-! ## Height bounds and monotonicity -/

theorem calculate_folder_height_mono {t1 t2 m : Nat} (h : t1 ≤ t2) :
    calculate_folder_height t1 m ≤ calculate_folder_height t2 m := by
  unfold calculate_folder_height
  by_cases hm : m ≤ 0
  · simp [hm]
  · simp only [hm, if_false]
    have hlogm : (0 : ℝ) < Real.log (m + 1) := by
      apply Real.log_pos
      have : 1 ≤ m := by omega
      have h2 : (1 : ℝ) ≤ (m : ℝ) := by exact_mod_cast this
      linarith
    have hlog : Real.log (t1 + 1) ≤ Real.log (t2 + 1) := by
      apply Real.log_le_log
      · positivity
      · have : (t1 : ℝ) ≤ (t2 : ℝ) := by exact_mod_cast h
        linarith
    have hdiv : Real.log (t1 + 1) / Real.log (m + 1)
        ≤ Real.log (t2 + 1) / Real.log (m + 1) :=
      div_le_div_of_nonneg_right hlog hlogm.le
    linarith

theorem calculate_folder_height_bounds {t m : Nat} (ht : t ≤ m) :
    2 ≤ calculate_folder_height t m ∧ calculate_folder_height t m ≤ 10 := by
  unfold calculate_folder_height
  by_cases hm : m ≤ 0
  · norm_num [hm]
  · simp only [hm, if_false]
    have hlogm : (0 : ℝ) < Real.log (m + 1) := by
      apply Real.log_pos
      have : 1 ≤ m := by omega
      have h2 : (1 : ℝ) ≤ (m : ℝ) := by exact_mod_cast this
      linarith
    have hlogt : (0 : ℝ) ≤ Real.log (t + 1) := by
      apply Real.log_nonneg
      have : (0 : ℝ) ≤ (t : ℝ) := Nat.cast_nonneg t
      linarith
    have hle : Real.log (t + 1) ≤ Real.log (m + 1) := by
      apply Real.log_le_log
      · positivity
      · have : (t : ℝ) ≤ (m : ℝ) := by exact_mod_cast ht
        linarith
    have hratio1 : Real.log (t + 1) / Real.log (m + 1) ≤ 1 :=
      div_le_one_of_le₀ hle hlogm.le
    have hratio0 : 0 ≤ Real.log (t + 1) / Real.log (m + 1) :=
      div_nonneg hlogt hlogm.le
    constructor <;> nlinarith

/-! ## Bridging lemmas for the positioned output -/

theorem out_folders_eq (amb : PRNGState) (layout : FilesystemLayout) :
    (calculate_positions_for_layout amb layout).folders = positionedFoldersOf layout := rfl

theorem folderTotalContentsGet_eq {layout : FilesystemLayout} {f : Folder}
    (hf : f ∈ layout.folders) :
    folderTotalContentsGet layout f.path = totalContentsOf layout f.path := by
  unfold folderTotalContentsGet
  have hc : (layout.folders.map Folder.path).contains f.path = true := by
    simp only [List.contains, List.elem_eq_mem, decide_eq_true_eq]
    exact List.mem_map_of_mem Folder.path hf
  rw [if_pos hc]

/-- Every record of the positioned output carries the logarithmic height of
its own recursive total. -/
theorem out_folder_height {layout : FilesystemLayout} {pf : Folder}
    (h : pf ∈ positionedFoldersOf layout) :
    pf.height = some (calculate_folder_height (totalContentsOf layout pf.path)
      (maxContents layout)) := by
  obtain ⟨f, pp, i, n, pa, hctx, rfl⟩ := positionedFoldersOf_sound h
  have hf := hctx.mem_folders
  show some (calculate_folder_height (folderTotalContentsGet layout f.path)
    (maxContents layout)) = _
  rw [folderTotalContentsGet_eq hf]
  rfl

theorem out_folder_from_input {layout : FilesystemLayout} {pf : Folder}
    (h : pf ∈ positionedFoldersOf layout) :
    ∃ f ∈ layout.folders, Reachable layout f ∧ pf.path = f.path ∧ pf.name = f.name
      ∧ pf.depth = f.depth ∧ pf.file_count = f.file_count := by
  obtain ⟨f, pp, i, n, pa, hctx, rfl⟩ := positionedFoldersOf_sound h
  exact ⟨f, hctx.mem_folders, hctx.reachable, rfl, rfl, rfl, rfl⟩

/-! ## Claim C2 — folder heights -/

/-- **C2.** Every folder in the positioned layout has height
`2 + 8 * log(T+1) / log(M+1)` where `T` is its recursive total contents
(satisfying the post-order recurrence: direct files + direct subfolders +
recursive totals of the subfolders) and `M` is the maximum such `T` over the
snapshot's folders; the height lies in `[2, 10]`, is monotone in `T`, and
falls back to the floor value `2` when `M = 0`. -/
theorem C2_folder_heights (layout : FilesystemLayout) (amb : PRNGState)
    (hroot : RootNotFolder layout) :
    (∀ pf ∈ (calculate_positions_for_layout amb layout).folders,
      pf.height = some (calculate_folder_height (totalContentsOf layout pf.path)
          (maxContents layout))
      ∧ (0 < maxContents layout →
          pf.height = some (2.0 + 8.0 * (Real.log (totalContentsOf layout pf.path + 1)
            / Real.log (maxContents layout + 1))))
      ∧ (maxContents layout = 0 → pf.height = some 2.0)
      ∧ ∃ h, pf.height = some h ∧ 2 ≤ h ∧ h ≤ 10)
    ∧ (∀ f ∈ layout.folders,
      totalContentsOf layout f.path
        = (filesByFolder layout f.path).length + (folderChildren layout f.path).length
          + ((folderChildren layout f.path).map (fun c => totalContentsOf layout c.path)).sum)
    ∧ ((∀ f ∈ layout.folders, totalContentsOf layout f.path ≤ maxContents layout)
      ∧ (layout.folders ≠ [] →
          ∃ f ∈ layout.folders, totalContentsOf layout f.path = maxContents layout))
    ∧ (∀ t1 t2 m : Nat, t1 ≤ t2 →
      calculate_folder_height t1 m ≤ calculate_folder_height t2 m) := by
  refine ⟨?_, ?_, ⟨fun f hf => totalContentsOf_le_maxContents hf,
    fun hne => maxContents_attained hne⟩, fun t1 t2 m h => calculate_folder_height_mono h⟩
  · intro pf hpf
    have hpf2 : pf ∈ positionedFoldersOf layout := hpf
    have hh := out_folder_height hpf2
    obtain ⟨f, hfmem, -, hpath, -, -, -⟩ := out_folder_from_input hpf2
    have hT_le : totalContentsOf layout pf.path ≤ maxContents layout := by
      rw [hpath]
      exact totalContentsOf_le_maxContents hfmem
    refine ⟨hh, ?_, ?_, ?_⟩
    · intro hM
      rw [hh]
      unfold calculate_folder_height
      rw [if_neg (by omega)]
    · intro hM
      rw [hh]
      unfold calculate_folder_height
      rw [if_pos (by omega)]
    · refine ⟨calculate_folder_height (totalContentsOf layout pf.path) (maxContents layout),
        hh, ?_, ?_⟩
      · exact (calculate_folder_height_bounds hT_le).1
      · exact (calculate_folder_height_bounds hT_le).2
  · intro f hf
    exact totalContentsOf_eq hroot (mem_folderPaths_of_mem hf)

/-! ## Claim C10 — reachable folders appear exactly once, orphans are
dropped -/

/-- **C10.** A folder appears in the positioned output iff its chain of
derived parent paths reaches the snapshot root through folders of the
snapshot; each reachable folder appears exactly once (output paths are
duplicate-free) with path, name, depth and direct file count copied from the
input record, and unreachable folders are dropped. -/
theorem C10_reachability (layout : FilesystemLayout) (amb : PRNGState)
    (hroot : RootNotFolder layout) (hnodup : (folderPaths layout).Nodup) :
    (∀ pf ∈ (calculate_positions_for_layout amb layout).folders,
      ∃ f ∈ layout.folders, Reachable layout f ∧ pf.path = f.path ∧ pf.name = f.name
        ∧ pf.depth = f.depth ∧ pf.file_count = f.file_count)
    ∧ (∀ f ∈ layout.folders, Reachable layout f →
      ∃ pf ∈ (calculate_positions_for_layout amb layout).folders,
        pf.path = f.path ∧ pf.name = f.name ∧ pf.depth = f.depth
          ∧ pf.file_count = f.file_count)
    ∧ ((calculate_positions_for_layout amb layout).folders.map Folder.path).Nodup
    ∧ (∀ f ∈ layout.folders, ¬ Reachable layout f →
      ∀ pf ∈ (calculate_positions_for_layout amb layout).folders, pf.path ≠ f.path) := by
  have hsound : ∀ pf ∈ (calculate_positions_for_layout amb layout).folders,
      ∃ f ∈ layout.folders, Reachable layout f ∧ pf.path = f.path ∧ pf.name = f.name
        ∧ pf.depth = f.depth ∧ pf.file_count = f.file_count := by
    intro pf hpf
    exact out_folder_from_input hpf
  refine ⟨hsound, ?_, ?_, ?_⟩
  · intro f hf hreach
    obtain ⟨pp, i, n, pa, hctx⟩ := hreach.callCtx
    refine ⟨mkPositioned layout (maxContents layout) f (place_position f pp i n),
      hctx.record_mem hroot, rfl, rfl, rfl, rfl⟩
  · exact positionedFoldersOf_nodup hroot hnodup
  · intro f hf hnreach pf hpf hpath
    obtain ⟨f2, hf2, hreach2, hpath2, -, -, -⟩ := hsound pf hpf
    have heq : f2 = f :=
      List.inj_on_of_nodup_map hnodup hf2 hf (by rw [← hpath2, hpath])
    exact hnreach (heq ▸ hreach2)

/-! ## Geometry of `place_position` -/

theorem place_position_y (f : Folder) (pp : Position) (i n : Nat) :
    (place_position f pp i n).y = 0 := by
  unfold place_position calculate_elevation
  by_cases h : f.depth = 1
  · rw [if_pos h]
    norm_num
  · rw [if_neg h]
    norm_num

theorem place_position_depth1 (f : Folder) (pp : Position) (i n : Nat)
    (h : f.depth = 1) :
    (place_position f pp i n).x
        = Real.cos ((i : ℝ) * (2 * Real.pi / (n : ℝ))) * 20.0
      ∧ (place_position f pp i n).y = 0
      ∧ (place_position f pp i n).z
        = Real.sin ((i : ℝ) * (2 * Real.pi / (n : ℝ))) * 20.0 := by
  unfold place_position calculate_elevation
  rw [if_pos h]
  norm_num

theorem place_position_depth2 (f : Folder) (pp : Position) (i n : Nat)
    (h : ¬ f.depth = 1) (hn : 0 < n) :
    (place_position f pp i n).x
        = pp.x + Real.cos ((i : ℝ) * (2 * Real.pi / (n : ℝ))) * 5.0
      ∧ (place_position f pp i n).y = 0
      ∧ (place_position f pp i n).z
        = pp.z + Real.sin ((i : ℝ) * (2 * Real.pi / (n : ℝ))) * 5.0 := by
  unfold place_position calculate_elevation
  rw [if_neg h]
  rw [if_pos hn]
  norm_num

theorem ring_distance (θ : ℝ) :
    Real.sqrt ((Real.cos θ * 20.0) ^ 2 + (Real.sin θ * 20.0) ^ 2) = 20 := by
  have h := Real.sin_sq_add_cos_sq θ
  have h2 : (Real.cos θ * 20.0) ^ 2 + (Real.sin θ * 20.0) ^ 2 = 20 ^ 2 := by nlinarith
  rw [h2]
  exact Real.sqrt_sq (by norm_num)

theorem cluster_distance (θ : ℝ) :
    Real.sqrt ((Real.cos θ * 5.0) ^ 2 + (Real.sin θ * 5.0) ^ 2) = 5 := by
  have h := Real.sin_sq_add_cos_sq θ
  have h2 : (Real.cos θ * 5.0) ^ 2 + (Real.sin θ * 5.0) ^ 2 = 5 ^ 2 := by nlinarith
  rw [h2]
  exact Real.sqrt_sq (by norm_num)

/-! ## Depth discipline along call contexts -/

/-- Depth-consistency of a snapshot: root children are recorded at depth 1. -/
def DepthRootOne (layout : FilesystemLayout) : Prop :=
  ∀ f ∈ layout.folders,
    derivedParent layout.root f.path = layout.root → f.depth = 1

/-- Depth-consistency of a snapshot: a derived child's recorded depth is its
parent's plus one. -/
def DepthStep (layout : FilesystemLayout) : Prop :=
  ∀ f ∈ layout.folders, ∀ g ∈ layout.folders,
    derivedParent layout.root g.path = f.path → g.depth = f.depth + 1

/-- Inversion for call contexts. -/
theorem CallCtx.inv {layout : FilesystemLayout} {f : Folder} {pp : Position}
    {i n : Nat} {pa : String} (h : CallCtx layout f pp i n pa) :
    (∃ hi : i < (folderChildren layout layout.root).length,
      f = (folderChildren layout layout.root).get ⟨i, hi⟩
        ∧ pp = (⟨0.0, 0.0, 0.0⟩ : Position)
        ∧ n = (folderChildren layout layout.root).length ∧ pa = layout.root)
    ∨ (∃ g ppg ig ng pag, CallCtx layout g ppg ig ng pag ∧
        ∃ hi : i < (folderChildren layout g.path).length,
          f = (folderChildren layout g.path).get ⟨i, hi⟩
          ∧ pp = place_position g ppg ig ng
          ∧ n = (folderChildren layout g.path).length ∧ pa = g.path) := by
  cases h with
  | top i hi => exact Or.inl ⟨hi, rfl, rfl, rfl, rfl⟩
  | child hctx j hj => exact Or.inr ⟨_, _, _, _, _, hctx, hj, rfl, rfl, rfl, rfl⟩

theorem ctx_depth_pos {layout : FilesystemLayout}
    (hd1 : DepthRootOne layout) (hd2 : DepthStep layout)
    {f : Folder} {pp : Position} {i n : Nat} {pa : String}
    (hctx : CallCtx layout f pp i n pa) : 1 ≤ f.depth := by
  induction hctx with
  | top k hk =>
    have hmem := mem_folderChildren.mp
      (List.get_mem (folderChildren layout layout.root) k hk)
    rw [hd1 _ hmem.1 hmem.2]
  | child hctxg j hj ih =>
    rename_i g ppg ig ng pag
    have hmem := mem_folderChildren.mp
      (List.get_mem (folderChildren layout g.path) j hj)
    rw [hd2 g hctxg.mem_folders _ hmem.1 hmem.2]
    omega

/-! ## Claim C1 — folder placement geometry -/

/-- **C1.** In every positioned layout: every folder sits at ground level
(`y = 0`); every depth-1 folder is the `i`-th of the `N` root children and
sits on the ring of radius 20 at angle `i * 2π / N`; every folder of depth
≥ 2 sits at angle `i * 2π / siblingCount` and x/z-distance exactly 5 from
its parent folder's computed position. -/
theorem C1_folder_positions (layout : FilesystemLayout) (amb : PRNGState)
    (hroot : RootNotFolder layout)
    (hd1 : DepthRootOne layout) (hd2 : DepthStep layout) :
    (∀ pf ∈ (calculate_positions_for_layout amb layout).folders,
      ∃ p, pf.position = some p ∧ p.y = 0)
    ∧ (∀ pf ∈ (calculate_positions_for_layout amb layout).folders, pf.depth = 1 →
      ∃ i, ∃ hi : i < (folderChildren layout layout.root).length,
        ((folderChildren layout layout.root).get ⟨i, hi⟩).path = pf.path ∧
        ∃ p, pf.position = some p
          ∧ p.x = Real.cos ((i : ℝ) * (2 * Real.pi
              / ((folderChildren layout layout.root).length : ℝ))) * 20.0
          ∧ p.y = 0
          ∧ p.z = Real.sin ((i : ℝ) * (2 * Real.pi
              / ((folderChildren layout layout.root).length : ℝ))) * 20.0
          ∧ Real.sqrt (p.x ^ 2 + p.z ^ 2) = 20)
    ∧ (∀ pf ∈ (calculate_positions_for_layout amb layout).folders, 2 ≤ pf.depth →
      ∃ qf ∈ (calculate_positions_for_layout amb layout).folders,
        derivedParent layout.root pf.path = qf.path ∧
        ∃ i, ∃ hi : i < (folderChildren layout qf.path).length,
          ((folderChildren layout qf.path).get ⟨i, hi⟩).path = pf.path ∧
          ∃ pp p, qf.position = some pp ∧ pf.position = some p
            ∧ p.x = pp.x + Real.cos ((i : ℝ) * (2 * Real.pi
                / ((folderChildren layout qf.path).length : ℝ))) * 5.0
            ∧ p.y = 0
            ∧ p.z = pp.z + Real.sin ((i : ℝ) * (2 * Real.pi
                / ((folderChildren layout qf.path).length : ℝ))) * 5.0
            ∧ Real.sqrt ((p.x - pp.x) ^ 2 + (p.z - pp.z) ^ 2) = 5) := by
  refine ⟨?_, ?_, ?_⟩
  · intro pf hpf
    obtain ⟨f, pp, i, n, pa, hctx, rfl⟩ := positionedFoldersOf_sound hpf
    exact ⟨place_position f pp i n, rfl, place_position_y f pp i n⟩
  · intro pf hpf hdepth
    obtain ⟨f, pp, i, n, pa, hctx, rfl⟩ := positionedFoldersOf_sound hpf
    have hfd : f.depth = 1 := hdepth
    rcases hctx.inv with ⟨hi, hf, hppe, hne, hpae⟩ |
      ⟨g, ppg, ig, ng, pag, hctxg, hj, hf, hppe, hne, hpae⟩
    · subst hf hppe hne hpae
      obtain ⟨hx, hy, hz⟩ := place_position_depth1
        ((folderChildren layout layout.root).get ⟨i, hi⟩)
        (⟨0.0, 0.0, 0.0⟩ : Position) i (folderChildren layout layout.root).length hfd
      exact ⟨i, hi, rfl,
        place_position ((folderChildren layout layout.root).get ⟨i, hi⟩)
          (⟨0.0, 0.0, 0.0⟩ : Position) i (folderChildren layout layout.root).length,
        rfl, hx, hy, hz, by rw [hx, hz]; exact ring_distance _⟩
    · exfalso
      subst hf
      have hmem := mem_folderChildren.mp
        (List.get_mem (folderChildren layout g.path) i hj)
      have hstep := hd2 g hctxg.mem_folders _ hmem.1 hmem.2
      have hgpos := ctx_depth_pos hd1 hd2 hctxg
      rw [hstep] at hfd
      omega
  · intro pf hpf hdepth
    obtain ⟨f, pp, i, n, pa, hctx, rfl⟩ := positionedFoldersOf_sound hpf
    have hfd : 2 ≤ f.depth := hdepth
    rcases hctx.inv with ⟨hi, hf, hppe, hne, hpae⟩ |
      ⟨g, ppg, ig, ng, pag, hctxg, hj, hf, hppe, hne, hpae⟩
    · exfalso
      subst hf
      have hmem := mem_folderChildren.mp
        (List.get_mem (folderChildren layout layout.root) i hi)
      have h1 := hd1 _ hmem.1 hmem.2
      omega
    · subst hf hppe hne hpae
      set c := (folderChildren layout g.path).get ⟨i, hj⟩ with hc
      have hmem := mem_folderChildren.mp (List.get_mem (folderChildren layout g.path) i hj)
      have hne1 : ¬ c.depth = 1 := by omega
      obtain ⟨hx, hy, hz⟩ := place_position_depth2 c (place_position g ppg ig ng) i
        (folderChildren layout g.path).length hne1 (by omega)
      refine ⟨mkPositioned layout (maxContents layout) g (place_position g ppg ig ng),
        hctxg.record_mem hroot, hmem.2, i, hj, rfl,
        place_position g ppg ig ng,
        place_position c (place_position g ppg ig ng) i
          (folderChildren layout g.path).length,
        rfl, rfl, hx, hy, hz, ?_⟩
      rw [hx, hz]
      have e1 : ∀ a b : ℝ, a + b - a = b := by intro a b; ring
      rw [e1, e1]
      exact cluster_distance _

/-! ## Claim C5 — determinism of the layout engine

The only stateful ingredient of `calculate_positions_for_layout` is the
global `random` generator; because `calculate_file_position` re-seeds it from
the file-path hash before drawing, the computed layout is independent of the
generator state the function is entered with. -/

theorem calculate_file_position_amb (pp : Position) (i total : Nat) (seed : Int)
    (g1 g2 : PRNGState) :
    calculate_file_position pp i total seed g1
      = calculate_file_position pp i total seed g2 := rfl

theorem position_files_group_amb (pp : Position) (total i : Nat)
    (fl : File) (fls : List File) (g1 g2 : PRNGState) :
    position_files_group pp total i g1 (fl :: fls)
      = position_files_group pp total i g2 (fl :: fls) := rfl

theorem mem_fileFolderKeys {files : List File} {key : String} :
    key ∈ fileFolderKeys files ↔ ∃ fl ∈ files, fl.folder = key := by
  have main : ∀ (fs : List File) (acc : List String),
      key ∈ fs.foldl
        (fun acc fl => if acc.contains fl.folder then acc else acc ++ [fl.folder]) acc
      ↔ key ∈ acc ∨ ∃ fl ∈ fs, fl.folder = key := by
    intro fs
    induction fs with
    | nil => intro acc; simp
    | cons fl fls ih =>
      intro acc
      show key ∈ fls.foldl _ (if acc.contains fl.folder then acc else acc ++ [fl.folder]) ↔ _
      rw [ih]
      by_cases hc : acc.contains fl.folder
      · rw [if_pos hc]
        have hmem : fl.folder ∈ acc := by
          simpa [List.contains] using hc
        constructor
        · rintro (h | h)
          · exact Or.inl h
          · exact Or.inr (by obtain ⟨x, hx, he⟩ := h; exact ⟨x, List.mem_cons_of_mem fl hx, he⟩)
        · rintro (h | ⟨x, hx, he⟩)
          · exact Or.inl h
          · rcases List.mem_cons.mp hx with rfl | hx2
            · exact Or.inl (he ▸ hmem)
            · exact Or.inr ⟨x, hx2, he⟩
      · rw [if_neg hc]
        simp only [List.mem_append, List.mem_singleton]
        constructor
        · rintro (⟨h | h⟩ | h)
          · exact Or.inl h
          · exact Or.inr ⟨fl, List.mem_cons_self fl fls, h.symm⟩
          · obtain ⟨x, hx, he⟩ := h
            exact Or.inr ⟨x, List.mem_cons_of_mem fl hx, he⟩
        · rintro (h | ⟨x, hx, he⟩)
          · exact Or.inl (Or.inl h)
          · rcases List.mem_cons.mp hx with rfl | hx2
            · exact Or.inl (Or.inr he.symm)
            · exact Or.inr ⟨x, hx2, he⟩
  rw [show fileFolderKeys files = files.foldl
    (fun acc fl => if acc.contains fl.folder then acc else acc ++ [fl.folder]) [] from rfl,
    main files []]
  simp

theorem position_all_files_cons (layout : FilesystemLayout)
    (fp : String → Option Position) (g : PRNGState) (key : String)
    (keys : List String) :
    position_all_files layout fp g (key :: keys)
      = match fp key with
        | none => position_all_files layout fp g keys
        | some pp =>
          ((position_files_group pp (filesByFolder layout key).length 0 g
              (filesByFolder layout key)).1
            ++ (position_all_files layout fp
                (position_files_group pp (filesByFolder layout key).length 0 g
                  (filesByFolder layout key)).2 keys).1,
            (position_all_files layout fp
              (position_files_group pp (filesByFolder layout key).length 0 g
                (filesByFolder layout key)).2 keys).2) := rfl

theorem position_all_files_fst (layout : FilesystemLayout)
    (fp : String → Option Position) :
    ∀ (keys : List String) (g1 g2 : PRNGState),
      (∀ key ∈ keys, filesByFolder layout key ≠ []) →
      (position_all_files layout fp g1 keys).1
        = (position_all_files layout fp g2 keys).1 := by
  intro keys
  induction keys with
  | nil => intro g1 g2 _; rfl
  | cons key keys ih =>
    intro g1 g2 hne
    rw [position_all_files_cons, position_all_files_cons]
    cases hfp : fp key with
    | none =>
      exact ih g1 g2 (fun k hk => hne k (List.mem_cons_of_mem key hk))
    | some pp =>
      have hkey := hne key (List.mem_cons_self key keys)
      obtain ⟨fl, fls, hfl⟩ : ∃ fl fls, filesByFolder layout key = fl :: fls := by
        rcases h2 : filesByFolder layout key with - | ⟨fl, fls⟩
        · exact absurd h2 hkey
        · exact ⟨fl, fls, rfl⟩
      have hgroup : position_files_group pp (filesByFolder layout key).length 0 g1
            (filesByFolder layout key)
          = position_files_group pp (filesByFolder layout key).length 0 g2
            (filesByFolder layout key) := by
        rw [hfl]
        exact position_files_group_amb pp (fl :: fls).length 0 fl fls g1 g2
      show ((position_files_group pp (filesByFolder layout key).length 0 g1
          (filesByFolder layout key)).1
        ++ (position_all_files layout fp
            (position_files_group pp (filesByFolder layout key).length 0 g1
              (filesByFolder layout key)).2 keys).1)
        = ((position_files_group pp (filesByFolder layout key).length 0 g2
          (filesByFolder layout key)).1
        ++ (position_all_files layout fp
            (position_files_group pp (filesByFolder layout key).length 0 g2
              (filesByFolder layout key)).2 keys).1)
      rw [hgroup]

/-- **C5.** The layout engine is deterministic: its output does not depend on
the ambient state of the pseudo-random generator (so two runs on the same
input produce the same output), and it returns a new layout whose root and
timestamp are those of the input (the input itself, being a value, is not
mutated). -/
theorem C5_determinism (layout : FilesystemLayout) (g1 g2 : PRNGState) :
    calculate_positions_for_layout g1 layout = calculate_positions_for_layout g2 layout
    ∧ (calculate_positions_for_layout g1 layout).root = layout.root
    ∧ (calculate_positions_for_layout g1 layout).folders = positionedFoldersOf layout
    ∧ (calculate_positions_for_layout g1 layout).scanned_at = layout.scanned_at := by
  refine ⟨?_, rfl, rfl, rfl⟩
  unfold calculate_positions_for_layout
  have hfiles : (position_all_files layout (folderPositionsMap layout) g1
        (fileFolderKeys layout.files)).1
      = (position_all_files layout (folderPositionsMap layout) g2
        (fileFolderKeys layout.files)).1 := by
    apply position_all_files_fst
    intro key hkey
    obtain ⟨fl, hfl, rfl⟩ := mem_fileFolderKeys.mp hkey
    have : fl ∈ filesByFolder layout fl.folder := by
      simp [filesByFolder, List.mem_filter, hfl]
    exact List.ne_nil_of_mem this
  rw [hfiles]

/-! ## Claim C7 — file scattering -/

theorem randomUniform_fst_mem (a b : ℝ) (h : a ≤ b) (g : PRNGState) :
    a ≤ (randomUniform a b g).1 ∧ (randomUniform a b g).1 ≤ b := by
  obtain ⟨t, ht0, ht1, hval⟩ : ∃ t : ℝ, 0 ≤ t ∧ t ≤ 1
      ∧ (randomUniform a b g).1 = a + (b - a) * t := by
    refine ⟨(((prngNext g).1 % 1000000 : Nat) : ℝ) / 1000000, ?_, ?_, rfl⟩
    · positivity
    · rw [div_le_one (by norm_num)]
      have hm : ((prngNext g).1 % 1000000 : Nat) < 1000000 :=
        Nat.mod_lt _ (by norm_num)
      exact_mod_cast hm.le
  rw [hval]
  constructor
  · nlinarith
  · nlinarith

noncomputable section

/-- The position `calculate_file_position` computes (independent of the
ambient generator state). -/
def filePosOf (pp : Position) (i total : Nat) (seed : Int) : Position :=
  (calculate_file_position pp i total seed ⟨0⟩).1

/-- The positioned copy of a file record. -/
def positionedFileOf (fl : File) (p : Position) : File :=
  { path := fl.path, name := fl.name, folder := fl.folder, size := fl.size,
    position := some p }

end

/-- The three seeded jitters of a file position, with their ranges. -/
theorem filePosOf_spec (pp : Position) (i total : Nat) (seed : Int) :
    ∃ ja jr yv : ℝ,
      -0.3 ≤ ja ∧ ja ≤ 0.3 ∧ -1.0 ≤ jr ∧ jr ≤ 1.0 ∧ 0.3 ≤ yv ∧ yv ≤ 0.7
      ∧ (filePosOf pp i total seed).x
        = pp.x + Real.cos ((i : ℝ) * (2 * Real.pi
            / ((max total 1 : Nat) : ℝ)) + ja) * (3.0 + jr)
      ∧ (filePosOf pp i total seed).y = yv
      ∧ (filePosOf pp i total seed).z
        = pp.z + Real.sin ((i : ℝ) * (2 * Real.pi
            / ((max total 1 : Nat) : ℝ)) + ja) * (3.0 + jr) := by
  refine ⟨(randomUniform (-0.3) 0.3 (randomSeed seed)).1,
    (randomUniform (-1.0) 1.0 (randomUniform (-0.3) 0.3 (randomSeed seed)).2).1,
    (randomUniform 0.3 0.7
      (randomUniform (-1.0) 1.0 (randomUniform (-0.3) 0.3 (randomSeed seed)).2).2).1,
    ?_, ?_, ?_, ?_, ?_, ?_, rfl, rfl, rfl⟩
  · exact (randomUniform_fst_mem (-0.3) 0.3 (by norm_num) _).1
  · exact (randomUniform_fst_mem (-0.3) 0.3 (by norm_num) _).2
  · exact (randomUniform_fst_mem (-1.0) 1.0 (by norm_num) _).1
  · exact (randomUniform_fst_mem (-1.0) 1.0 (by norm_num) _).2
  · exact (randomUniform_fst_mem 0.3 0.7 (by norm_num) _).1
  · exact (randomUniform_fst_mem 0.3 0.7 (by norm_num) _).2

/-- Membership description of one positioned file group. -/
theorem position_files_group_mem {pp : Position} {total : Nat} :
    ∀ (fls : List File) (i0 : Nat) (g : PRNGState) (pfl : File),
      pfl ∈ (position_files_group pp total i0 g fls).1 ↔
        ∃ k, ∃ hk : k < fls.length,
          pfl = positionedFileOf (fls.get ⟨k, hk⟩)
            (filePosOf pp (i0 + k) total (pyHash (fls.get ⟨k, hk⟩).path)) := by
  intro fls
  induction fls with
  | nil => intro i0 g pfl; simp [position_files_group]
  | cons fl fls ih =>
    intro i0 g pfl
    show pfl ∈ positionedFileOf fl (filePosOf pp i0 total (pyHash fl.path))
        :: (position_files_group pp total (i0 + 1)
          (calculate_file_position pp i0 total (pyHash fl.path) g).2 fls).1 ↔ _
    rw [List.mem_cons, ih]
    constructor
    · rintro (rfl | ⟨k, hk, rfl⟩)
      · exact ⟨0, by simp, by simp⟩
      · exact ⟨k + 1, by simpa using hk,
          by simp [Nat.add_assoc, Nat.add_comm 1 k]⟩
    · rintro ⟨k, hk, rfl⟩
      match k with
      | 0 => exact Or.inl (by simp)
      | k + 1 =>
        refine Or.inr ⟨k, by simpa using hk, ?_⟩
        simp [Nat.add_assoc, Nat.add_comm 1 k]

/-- Membership description of the whole positioned file list. -/
theorem position_all_files_mem (layout : FilesystemLayout)
    (fp : String → Option Position) :
    ∀ (keys : List String) (g : PRNGState) (pfl : File),
      pfl ∈ (position_all_files layout fp g keys).1 ↔
        ∃ key ∈ keys, ∃ pp, fp key = some pp ∧
          ∃ k, ∃ hk : k < (filesByFolder layout key).length,
            pfl = positionedFileOf ((filesByFolder layout key).get ⟨k, hk⟩)
              (filePosOf pp k (filesByFolder layout key).length
                (pyHash ((filesByFolder layout key).get ⟨k, hk⟩).path)) := by
  intro keys
  induction keys with
  | nil => intro g pfl; simp [position_all_files]
  | cons key keys ih =>
    intro g pfl
    rw [position_all_files_cons]
    cases hfp : fp key with
    | none =>
      rw [ih]
      constructor
      · rintro ⟨key2, hkey2, rest⟩
        exact ⟨key2, List.mem_cons_of_mem key hkey2, rest⟩
      · rintro ⟨key2, hkey2, pp, hpp, rest⟩
        rcases List.mem_cons.mp hkey2 with rfl | hkey3
        · rw [hfp] at hpp
          cases hpp
        · exact ⟨key2, hkey3, pp, hpp, rest⟩
    | some pp =>
      show pfl ∈ _ ++ _ ↔ _
      rw [List.mem_append, position_files_group_mem, ih]
      constructor
      · rintro (⟨k, hk, rfl⟩ | ⟨key2, hkey2, rest⟩)
        · refine ⟨key, List.mem_cons_self key keys, pp, hfp, k, hk, ?_⟩
          rw [Nat.zero_add]
        · exact ⟨key2, List.mem_cons_of_mem key hkey2, rest⟩
      · rintro ⟨key2, hkey2, pp2, hpp2, k, hk, rfl⟩
        rcases List.mem_cons.mp hkey2 with rfl | hkey3
        · rw [hfp] at hpp2
          cases hpp2
          exact Or.inl ⟨k, hk, by rw [Nat.zero_add]⟩
        · exact Or.inr ⟨key2, hkey3, pp2, hpp2, k, hk, rfl⟩

/-! ### Values of the final `folder_positions` dict -/

theorem out_folder_path_ne_root {layout : FilesystemLayout}
    (hroot : RootNotFolder layout) {pf : Folder}
    (hpf : pf ∈ positionedFoldersOf layout) : pf.path ≠ layout.root := by
  obtain ⟨f, hf, -, hpath, -⟩ := out_folder_from_input hpf
  intro he
  apply hroot
  have hfr : f.path = layout.root := by rw [← hpath, he]
  rw [← hfr]
  exact mem_folderPaths_of_mem hf

theorem folderPositionsMap_root {layout : FilesystemLayout}
    (hroot : RootNotFolder layout) :
    folderPositionsMap layout layout.root = some ⟨0.0, 0.0, 0.0⟩ := by
  unfold folderPositionsMap
  have hnone : (positionedFoldersOf layout).reverse.find?
      (fun f => f.path = layout.root) = none := by
    rw [List.find?_eq_none]
    intro x hx
    rw [List.mem_reverse] at hx
    simp only [decide_eq_true_eq]
    exact out_folder_path_ne_root hroot hx
  rw [hnone]
  rw [if_pos rfl]

theorem folderPositionsMap_none {layout : FilesystemLayout} {q : String}
    (hq : q ≠ layout.root)
    (hnone : ∀ pf ∈ positionedFoldersOf layout, pf.path ≠ q) :
    folderPositionsMap layout q = none := by
  unfold folderPositionsMap
  have hfind : (positionedFoldersOf layout).reverse.find? (fun f => f.path = q) = none := by
    rw [List.find?_eq_none]
    intro x hx
    rw [List.mem_reverse] at hx
    simp only [decide_eq_true_eq]
    exact hnone x hx
  rw [hfind]
  rw [if_neg hq]

theorem folderPositionsMap_folder {layout : FilesystemLayout}
    (hroot : RootNotFolder layout) (hnodup : (folderPaths layout).Nodup)
    {pf : Folder} (hpf : pf ∈ positionedFoldersOf layout) :
    folderPositionsMap layout pf.path = pf.position := by
  unfold folderPositionsMap
  have hnd := positionedFoldersOf_nodup hroot hnodup
  cases hfind : (positionedFoldersOf layout).reverse.find? (fun f => f.path = pf.path) with
  | none =>
    exfalso
    rw [List.find?_eq_none] at hfind
    exact hfind pf (List.mem_reverse.mpr hpf) (by simp)
  | some x =>
    have hxmem : x ∈ positionedFoldersOf layout :=
      List.mem_reverse.mp (List.mem_of_find?_eq_some hfind)
    have hxpath : x.path = pf.path := by
      have := List.find?_some hfind
      simpa using this
    have : x = pf := List.inj_on_of_nodup_map hnd hxmem hpf hxpath
    rw [this]

/-- **C7.** Every file whose owning folder path is positioned (or equals the
snapshot root, which scatters around the origin) appears in the output,
placed around its parent at angle `i * 2π / max(groupSize, 1)` plus a seeded
jitter in `[-0.3, 0.3]`, radius `3.0` plus a seeded jitter in `[-1, 1]`, with
`y` a seeded value in `[0.3, 0.7]` above the parent's `y` (which is `0`);
files whose owning folder path is absent from the positioned folder set are
dropped from the output rather than raising. -/
theorem C7_file_positions (layout : FilesystemLayout) (amb : PRNGState)
    (hroot : RootNotFolder layout) (hnodup : (folderPaths layout).Nodup)
    (hfnodup : (layout.files.map File.path).Nodup) :
    (∀ fl ∈ layout.files, ∀ pp : Position,
      ((fl.folder = layout.root ∧ pp = (⟨0.0, 0.0, 0.0⟩ : Position))
        ∨ (∃ pf ∈ (calculate_positions_for_layout amb layout).folders,
            pf.path = fl.folder ∧ pf.position = some pp)) →
      ∃ pfl ∈ (calculate_positions_for_layout amb layout).files,
        pfl.path = fl.path ∧ pfl.name = fl.name ∧ pfl.folder = fl.folder
        ∧ pfl.size = fl.size ∧ pp.y = 0 ∧
        ∃ i, ∃ hi : i < (filesByFolder layout fl.folder).length,
          (filesByFolder layout fl.folder).get ⟨i, hi⟩ = fl ∧
          ∃ p, pfl.position = some p ∧
          ∃ ja jr yv : ℝ,
            -0.3 ≤ ja ∧ ja ≤ 0.3 ∧ -1.0 ≤ jr ∧ jr ≤ 1.0 ∧ 0.3 ≤ yv ∧ yv ≤ 0.7
            ∧ p.x = pp.x + Real.cos ((i : ℝ) * (2 * Real.pi
                / ((max (filesByFolder layout fl.folder).length 1 : Nat) : ℝ)) + ja)
                * (3.0 + jr)
            ∧ p.y = pp.y + yv
            ∧ p.z = pp.z + Real.sin ((i : ℝ) * (2 * Real.pi
                / ((max (filesByFolder layout fl.folder).length 1 : Nat) : ℝ)) + ja)
                * (3.0 + jr))
    ∧ (∀ fl ∈ layout.files, fl.folder ≠ layout.root →
        (∀ pf ∈ (calculate_positions_for_layout amb layout).folders,
          pf.path ≠ fl.folder) →
        ∀ pfl ∈ (calculate_positions_for_layout amb layout).files,
          pfl.path ≠ fl.path) := by
  constructor
  · intro fl hfl pp hpp
    have hflgroup : fl ∈ filesByFolder layout fl.folder := by
      simp [filesByFolder, List.mem_filter, hfl]
    obtain ⟨⟨k, hk⟩, hget⟩ := List.mem_iff_get.mp hflgroup
    have hfpm : folderPositionsMap layout fl.folder = some pp := by
      rcases hpp with ⟨hfr, rfl⟩ | ⟨pf, hpf, hpath, hpos⟩
      · rw [hfr]
        exact folderPositionsMap_root hroot
      · rw [← hpath]
        rw [folderPositionsMap_folder hroot hnodup hpf]
        exact hpos
    have hppy : pp.y = 0 := by
      rcases hpp with ⟨-, rfl⟩ | ⟨pf, hpf, -, hpos⟩
      · norm_num
      · obtain ⟨f, fpp, fi, fn, fpa, hctx, rfl⟩ := positionedFoldersOf_sound hpf
        have : some (place_position f fpp fi fn) = some pp := hpos
        cases this
        exact place_position_y f fpp fi fn
    have hkeymem : fl.folder ∈ fileFolderKeys layout.files :=
      mem_fileFolderKeys.mpr ⟨fl, hfl, rfl⟩
    refine ⟨positionedFileOf fl (filePosOf pp k (filesByFolder layout fl.folder).length
        (pyHash fl.path)), ?_, rfl, rfl, rfl, rfl, hppy, ?_⟩
    · show _ ∈ (position_all_files layout (folderPositionsMap layout) amb
        (fileFolderKeys layout.files)).1
      rw [position_all_files_mem]
      exact ⟨fl.folder, hkeymem, pp, hfpm, k, hk, by rw [hget]⟩
    · obtain ⟨ja, jr, yv, h1, h2, h3, h4, h5, h6, hx, hy, hz⟩ :=
        filePosOf_spec pp k (filesByFolder layout fl.folder).length (pyHash fl.path)
      refine ⟨k, hk, hget, filePosOf pp k (filesByFolder layout fl.folder).length
        (pyHash fl.path), rfl, ja, jr, yv, h1, h2, h3, h4, h5, h6, hx, ?_, hz⟩
      rw [hy, hppy]
      ring
  · intro fl hfl hner hnopf pfl hpfl hpatheq
    have hpfl2 : pfl ∈ (position_all_files layout (folderPositionsMap layout) amb
        (fileFolderKeys layout.files)).1 := hpfl
    rw [position_all_files_mem] at hpfl2
    obtain ⟨key, hkey, pp, hppfind, k, hk, rfl⟩ := hpfl2
    set g := (filesByFolder layout key).get ⟨k, hk⟩ with hg
    have hgmem : g ∈ filesByFolder layout key := List.get_mem _ _ _
    have hgfiles : g ∈ layout.files := List.mem_of_mem_filter hgmem
    have hgfolder : g.folder = key := by
      have := List.of_mem_filter hgmem
      simpa using this
    have hgpath : g.path = fl.path := hpatheq
    have hgfl : g = fl := List.inj_on_of_nodup_map hfnodup hgfiles hfl hgpath
    have hkeyfl : fl.folder = key := by rw [← hgfl, hgfolder]
    have hnone : folderPositionsMap layout fl.folder = none := by
      apply folderPositionsMap_none hner
      intro pf hpf
      exact hnopf pf hpf
    rw [hkeyfl] at hnone
    rw [hnone] at hppfind
    cases hppfind

/-! ## Concrete demonstration inputs -/

/-- A fixed ambient generator state. -/
def demoRng : PRNGState := ⟨0⟩

noncomputable section

/-- A small snapshot: root `"R"`, a reachable depth-1 folder `"a"` with one
file, its child `"a/b"`, and an orphan `"x/y"` whose parent `"x"` is not in
the snapshot. -/
def demoLayout : FilesystemLayout :=
  { root := "R",
    folders := [⟨"a", "a", 1, 1, none, none⟩, ⟨"a/b", "b", 2, 0, none, none⟩,
                ⟨"x/y", "y", 2, 0, none, none⟩],
    files := [⟨"a/f.txt", "f.txt", "a", 3, none⟩],
    scanned_at := 0 }

end

theorem demoLayout_rootNotFolder : RootNotFolder demoLayout := by
  unfold RootNotFolder folderPaths demoLayout
  decide

theorem demoLayout_nodup : (folderPaths demoLayout).Nodup := by
  unfold folderPaths demoLayout
  decide

theorem demoLayout_depthRootOne : DepthRootOne demoLayout := by
  unfold DepthRootOne demoLayout derivedParent rawParent
  decide

theorem demoLayout_depthStep : DepthStep demoLayout := by
  unfold DepthStep demoLayout derivedParent rawParent
  decide

/-- Witness for C1 at the concrete snapshot `demoLayout`. -/
theorem C1_folder_positions_witness :
    (RootNotFolder demoLayout ∧ DepthRootOne demoLayout ∧ DepthStep demoLayout) ∧
    (∀ pf ∈ (calculate_positions_for_layout demoRng demoLayout).folders,
      ∃ p, pf.position = some p ∧ p.y = 0) :=
  ⟨⟨demoLayout_rootNotFolder, demoLayout_depthRootOne, demoLayout_depthStep⟩,
   (C1_folder_positions demoLayout demoRng demoLayout_rootNotFolder
      demoLayout_depthRootOne demoLayout_depthStep).1⟩

theorem demoLayout_files_nodup : (demoLayout.files.map File.path).Nodup := by
  unfold demoLayout
  decide

/-- Witness for C7 at the concrete snapshot `demoLayout`. -/
theorem C7_file_positions_witness :
    (RootNotFolder demoLayout ∧ (folderPaths demoLayout).Nodup
      ∧ (demoLayout.files.map File.path).Nodup) ∧
    (∀ fl ∈ demoLayout.files, fl.folder ≠ demoLayout.root →
      (∀ pf ∈ (calculate_positions_for_layout demoRng demoLayout).folders,
        pf.path ≠ fl.folder) →
      ∀ pfl ∈ (calculate_positions_for_layout demoRng demoLayout).files,
        pfl.path ≠ fl.path) :=
  ⟨⟨demoLayout_rootNotFolder, demoLayout_nodup, demoLayout_files_nodup⟩,
   (C7_file_positions demoLayout demoRng demoLayout_rootNotFolder demoLayout_nodup
      demoLayout_files_nodup).2⟩

/-- Witness for C2 at the concrete snapshot `demoLayout`. -/
theorem C2_folder_heights_witness :
    RootNotFolder demoLayout ∧
    (∀ f ∈ demoLayout.folders,
      totalContentsOf demoLayout f.path ≤ maxContents demoLayout) :=
  ⟨demoLayout_rootNotFolder,
   (C2_folder_heights demoLayout demoRng demoLayout_rootNotFolder).2.2.1.1⟩

/-- Witness for C10 at the concrete snapshot `demoLayout`. -/
theorem C10_reachability_witness :
    (RootNotFolder demoLayout ∧ (folderPaths demoLayout).Nodup) ∧
    ((calculate_positions_for_layout demoRng demoLayout).folders.map Folder.path).Nodup :=
  ⟨⟨demoLayout_rootNotFolder, demoLayout_nodup⟩,
   (C10_reachability demoLayout demoRng demoLayout_rootNotFolder demoLayout_nodup).2.2.1⟩

/-! ## The session store -/

theorem find?_map_replace (sid : String) (a : AgentState) :
    ∀ l : List (String × AgentState), l.any (fun kv => kv.1 = sid) = true →
      ((l.map (fun kv => if kv.1 = sid then (kv.1, a) else kv)).find?
        (fun kv => kv.1 = sid)).map (fun kv => kv.2) = some a := by
  intro l
  induction l with
  | nil => intro h; simp at h
  | cons kv rest ih =>
    intro h
    by_cases hkv : kv.1 = sid
    · rw [List.map_cons, if_pos hkv,
        List.find?_cons_of_pos _ (by simpa using hkv)]
      rfl
    · have hrest : rest.any (fun kv => kv.1 = sid) = true := by
        rcases List.any_eq_true.mp h with ⟨x, hx, hxp⟩
        rcases List.mem_cons.mp hx with rfl | hx2
        · simp [hkv] at hxp
        · exact List.any_eq_true.mpr ⟨x, hx2, hxp⟩
      rw [List.map_cons, if_neg hkv,
        List.find?_cons_of_neg _ (by simpa using hkv)]
      exact ih hrest

theorem find?_append_key (sid : String) (a : AgentState) :
    ∀ l : List (String × AgentState), ¬ l.any (fun kv => kv.1 = sid) = true →
      ((l ++ [(sid, a)]).find? (fun kv => kv.1 = sid)).map (fun kv => kv.2) = some a := by
  intro l
  induction l with
  | nil =>
    intro _
    rw [List.nil_append, List.find?_cons_of_pos _ (by simp)]
    rfl
  | cons kv rest ih =>
    intro h
    have hkv : ¬ kv.1 = sid := by
      intro he
      exact h (List.any_eq_true.mpr ⟨kv, List.mem_cons_self kv rest, by simp [he]⟩)
    have hrest : ¬ rest.any (fun kv => kv.1 = sid) = true := by
      intro h2
      rcases List.any_eq_true.mp h2 with ⟨x, hx, hxp⟩
      exact h (List.any_eq_true.mpr ⟨x, List.mem_cons_of_mem kv hx, hxp⟩)
    rw [List.cons_append, List.find?_cons_of_neg _ (by simpa using hkv)]
    exact ih hrest

theorem getAgent_setAgent (st : AgentServiceState) (sid : String) (a : AgentState) :
    getAgent (setAgent st sid a) sid = some a := by
  unfold getAgent setAgent
  by_cases h : st.agents.any (fun kv => kv.1 = sid)
  · rw [if_pos h]
    exact find?_map_replace sid a st.agents h
  · rw [if_neg h]
    exact find?_append_key sid a st.agents h

theorem setAgent_terrain_layout (st : AgentServiceState) (sid : String) (a : AgentState) :
    (setAgent st sid a).terrain_layout = st.terrain_layout := by
  unfold setAgent
  split <;> rfl

theorem setAgent_current_cwd (st : AgentServiceState) (sid : String) (a : AgentState) :
    (setAgent st sid a).current_cwd = st.current_cwd := by
  unfold setAgent
  split <;> rfl

/-! ## Claim C3 — SessionStart notification sequences -/

/-- **C3.** A SessionStart with a supplied (non-empty) working directory that
differs from the recorded one, whose snapshot succeeds, emits exactly the
four notifications `[terrain_loading, filesystem, terrain_complete,
agent_spawn]` in order and stores the new layout and directory; a
SessionStart whose working directory is absent or equals the recorded one
emits exactly `[agent_spawn]`.  In both cases the agent's position is reset
to the origin. -/
theorem C3_session_start (snapshot : String → Except String FilesystemLayout)
    (st : AgentServiceState) (ev : HookEvent) :
    (∀ c L, ev.cwd = some c → c ≠ "" → some c ≠ st.current_cwd →
      snapshot c = Except.ok L →
      (handle_session_start snapshot st ev).2
        = [Notification.terrain_loading ev.session_id c "Creating world...",
           Notification.filesystem L,
           Notification.terrain_complete ev.session_id L.folders.length L.files.length,
           Notification.agent_spawn ev.session_id ⟨0.0, 0.0, 0.0⟩ "#e07850"]
      ∧ (handle_session_start snapshot st ev).1.terrain_layout = some L
      ∧ (handle_session_start snapshot st ev).1.current_cwd = some c
      ∧ ∃ a, getAgent (handle_session_start snapshot st ev).1 ev.session_id = some a
          ∧ a.position = (⟨0.0, 0.0, 0.0⟩ : Position))
    ∧ ((ev.cwd = none ∨ ev.cwd = st.current_cwd) →
      (handle_session_start snapshot st ev).2
        = [Notification.agent_spawn ev.session_id ⟨0.0, 0.0, 0.0⟩ "#e07850"]
      ∧ (handle_session_start snapshot st ev).1.terrain_layout = st.terrain_layout
      ∧ (handle_session_start snapshot st ev).1.current_cwd = st.current_cwd
      ∧ ∃ a, getAgent (handle_session_start snapshot st ev).1 ev.session_id = some a
          ∧ a.position = (⟨0.0, 0.0, 0.0⟩ : Position)) := by
  constructor
  · intro c L hc hne hdiff hsnap
    unfold handle_session_start
    rw [hc]
    simp only [if_pos (And.intro hne hdiff), hsnap]
    refine ⟨rfl, ?_, ?_, ?_⟩
    · rw [setAgent_terrain_layout]
    · rw [setAgent_current_cwd]
    · exact ⟨_, getAgent_setAgent _ _ _, rfl⟩
  · intro hcase
    rcases hcase with hc | hc
    · unfold handle_session_start
      rw [hc]
      refine ⟨rfl, ?_, ?_, ?_⟩
      · rw [setAgent_terrain_layout]
      · rw [setAgent_current_cwd]
      · exact ⟨_, getAgent_setAgent _ _ _, rfl⟩
    · unfold handle_session_start
      rcases hcur : st.current_cwd with - | c
      · rw [hcur] at hc
        rw [hc]
        refine ⟨rfl, ?_, ?_, ?_⟩
        · rw [setAgent_terrain_layout]
        · rw [setAgent_current_cwd, hcur]
        · exact ⟨_, getAgent_setAgent _ _ _, rfl⟩
      · rw [hcur] at hc
        rw [hc]
        have hcond : ¬ (c ≠ "" ∧ some c ≠ some c) := by
          intro hand
          exact hand.2 rfl
        simp only [if_neg hcond]
        refine ⟨rfl, ?_, ?_, ?_⟩
        · rw [setAgent_terrain_layout]
        · rw [setAgent_current_cwd, hcur]
        · exact ⟨_, getAgent_setAgent _ _ _, rfl⟩

/-! ## Claim C6 — SessionStart error path -/

/-- **C6.** When the snapshot of a fresh working directory raises, the error
is contained: the stored layout and recorded working directory are
unchanged, no `filesystem` or `terrain_complete` notification is emitted
(the emitted list is exactly `[terrain_loading, agent_spawn]`), and the
`agent_spawn` notification is still emitted. -/
theorem C6_session_start_error (snapshot : String → Except String FilesystemLayout)
    (st : AgentServiceState) (ev : HookEvent) (c : String) (err : String)
    (hc : ev.cwd = some c) (hne : c ≠ "") (hdiff : some c ≠ st.current_cwd)
    (hsnap : snapshot c = Except.error err) :
    (handle_session_start snapshot st ev).2
      = [Notification.terrain_loading ev.session_id c "Creating world...",
         Notification.agent_spawn ev.session_id ⟨0.0, 0.0, 0.0⟩ "#e07850"]
    ∧ (handle_session_start snapshot st ev).1.terrain_layout = st.terrain_layout
    ∧ (handle_session_start snapshot st ev).1.current_cwd = st.current_cwd
    ∧ ∃ a, getAgent (handle_session_start snapshot st ev).1 ev.session_id = some a
        ∧ a.position = (⟨0.0, 0.0, 0.0⟩ : Position) := by
  unfold handle_session_start
  rw [hc]
  simp only [if_pos (And.intro hne hdiff), hsnap]
  refine ⟨rfl, ?_, ?_, ?_⟩
  · rw [setAgent_terrain_layout]
  · rw [setAgent_current_cwd]
  · exact ⟨_, getAgent_setAgent _ _ _, rfl⟩

/-! ## Claim C4 — PreToolUse path resolution and movement -/

/-- **C4.** The candidate path of a PreToolUse event is extracted by the
per-tool rule (`Read`/`Write`/`Edit` → `file_path`, `Grep`/`Glob` → `path`,
anything else → none); when it exactly matches a file of the loaded layout
(with a stored position) the one emitted AgentEvent is a `"move"` carrying
that stored position and the agent's position is updated to it; otherwise
the one emitted AgentEvent is a `"think"` with no target position and the
agent's position is unchanged. -/
theorem C4_pre_tool_use (now : Int) (st : AgentServiceState) (ev : HookEvent) :
    (∀ ti : List (String × String), ti ≠ [] →
      extract_file_path "Read" ti = dictGet ti "file_path"
      ∧ extract_file_path "Write" ti = dictGet ti "file_path"
      ∧ extract_file_path "Edit" ti = dictGet ti "file_path"
      ∧ extract_file_path "Grep" ti = dictGet ti "path"
      ∧ extract_file_path "Glob" ti = dictGet ti "path")
    ∧ (∀ (tn : String) (ti : List (String × String)),
        tn ∉ (["Read", "Write", "Edit", "Grep", "Glob"] : List String) →
        extract_file_path tn ti = none)
    ∧ (∀ (layout : FilesystemLayout) (ti : List (String × String)) (p : String)
        (fl : File) (pos : Position),
        st.terrain_layout = some layout →
        ev.tool_input = some ti → ¬ ti.isEmpty = true →
        extract_file_path (ev.tool_name.getD "") ti = some p → ¬ p = "" →
        layout.files.find? (fun f => f.path = p) = some fl →
        fl.position = some pos →
        ∃ e, (handle_pre_tool_use now st ev).2 = Notification.agent_event e
          ∧ e.event_type = "move" ∧ e.target_position = some pos
          ∧ e.target_path = some p
          ∧ ∃ a, getAgent (handle_pre_tool_use now st ev).1 ev.session_id = some a
              ∧ a.position = pos)
    ∧ ((ev.tool_input = none
        ∨ (∃ ti, ev.tool_input = some ti ∧
            (ti.isEmpty = true ∨ extract_file_path (ev.tool_name.getD "") ti = none))
        ∨ (∃ ti p, ev.tool_input = some ti ∧ ¬ ti.isEmpty = true
            ∧ extract_file_path (ev.tool_name.getD "") ti = some p
            ∧ (p = "" ∨ get_file_position st p = none))) →
      ∃ e, (handle_pre_tool_use now st ev).2 = Notification.agent_event e
        ∧ e.event_type = "think" ∧ e.target_position = none
        ∧ ∃ a, getAgent (handle_pre_tool_use now st ev).1 ev.session_id = some a
            ∧ a.position = ((getAgent st ev.session_id).getD
                (initialAgentState ev.session_id)).position) := by
  refine ⟨?_, ?_, ?_, ?_⟩
  · intro ti hti
    have hmt : ¬ ti.isEmpty = true := by
      cases ti with
      | nil => exact absurd rfl hti
      | cons a l => simp
    refine ⟨?_, ?_, ?_, ?_, ?_⟩ <;> simp [extract_file_path, hmt]
  · intro tn ti hmem
    simp only [List.mem_cons, List.mem_singleton] at hmem
    push_neg at hmem
    obtain ⟨h1, h2, h3, h4, h5⟩ := hmem
    by_cases hmt : ti.isEmpty = true
    · simp [extract_file_path, hmt]
    · simp [extract_file_path, hmt, h1, h2, h3, h4, h5]
  · intro layout ti p fl pos hlay hti hne hextract hpne hfind hpos
    have hfp : candidate_path ev.tool_name ev.tool_input = some p := by
      rw [hti]
      show (if ti.isEmpty = true then none
        else extract_file_path (ev.tool_name.getD "") ti) = some p
      rw [if_neg hne]
      exact hextract
    have htp : lookup_candidate st (candidate_path ev.tool_name ev.tool_input)
        = some pos := by
      rw [hfp]
      show (if p = "" then none else get_file_position st p) = some pos
      rw [if_neg hpne]
      show (match st.terrain_layout with
        | none => none
        | some layout =>
          match layout.files.find? (fun f => f.path = p) with
          | some f => f.position
          | none => none) = some pos
      rw [hlay]
      show (match layout.files.find? (fun f => f.path = p) with
        | some f => f.position
        | none => none) = some pos
      rw [hfind]
      exact hpos
    refine ⟨pre_tool_event now st ev, rfl, ?_, ?_, ?_, ?_⟩
    · show (if (lookup_candidate st (candidate_path ev.tool_name ev.tool_input)).isSome
        then "move" else "think") = "move"
      rw [htp]
      rfl
    · show lookup_candidate st (candidate_path ev.tool_name ev.tool_input) = some pos
      exact htp
    · exact hfp
    · refine ⟨pre_tool_agent st ev, getAgent_setAgent _ _ _, ?_⟩
      show (lookup_candidate st (candidate_path ev.tool_name ev.tool_input)).getD
        ((getAgent st ev.session_id).getD (initialAgentState ev.session_id)).position = pos
      rw [htp]
      rfl
  · intro hcase
    have htp : lookup_candidate st (candidate_path ev.tool_name ev.tool_input)
        = none := by
      rcases hcase with hc | ⟨ti, hti, hc | hc⟩ | ⟨ti, p, hti, hne, hext, hc⟩
      · rw [hc]; rfl
      · rw [hti]
        show lookup_candidate st (if ti.isEmpty = true then none
          else extract_file_path (ev.tool_name.getD "") ti) = none
        rw [if_pos hc]
        rfl
      · rw [hti]
        show lookup_candidate st (if ti.isEmpty = true then none
          else extract_file_path (ev.tool_name.getD "") ti) = none
        by_cases h2 : ti.isEmpty = true
        · rw [if_pos h2]; rfl
        · rw [if_neg h2, hc]; rfl
      · have hfp : candidate_path ev.tool_name ev.tool_input = some p := by
          rw [hti]
          show (if ti.isEmpty = true then none
            else extract_file_path (ev.tool_name.getD "") ti) = some p
          rw [if_neg hne]
          exact hext
        rw [hfp]
        show (if p = "" then none else get_file_position st p) = none
        rcases hc with rfl | hc
        · rw [if_pos rfl]
        · by_cases hps : p = ""
          · rw [if_pos hps]
          · rw [if_neg hps]
            exact hc
    refine ⟨pre_tool_event now st ev, rfl, ?_, ?_, ?_⟩
    · show (if (lookup_candidate st (candidate_path ev.tool_name ev.tool_input)).isSome
        then "move" else "think") = "think"
      rw [htp]
      rfl
    · show lookup_candidate st (candidate_path ev.tool_name ev.tool_input) = none
      exact htp
    · refine ⟨pre_tool_agent st ev, getAgent_setAgent _ _ _, ?_⟩
      show (lookup_candidate st (candidate_path ev.tool_name ev.tool_input)).getD
        ((getAgent st ev.session_id).getD (initialAgentState ev.session_id)).position
        = ((getAgent st ev.session_id).getD (initialAgentState ev.session_id)).position
      rw [htp]
      rfl

/-! ## Concrete agent-service inputs -/

noncomputable section

/-- A stored file position. -/
def demoFilePos : Position := ⟨1.0, 2.0, 3.0⟩

/-- A stored positioned file. -/
def demoFile : File :=
  { path := "/t/a.txt", name := "a.txt", folder := "/t", size := 1,
    position := some demoFilePos }

/-- A loaded (already positioned) terrain layout. -/
def demoTerrain : FilesystemLayout :=
  { root := "/t", folders := [], files := [demoFile], scanned_at := 0 }

/-- A service state holding `demoTerrain` for working directory `/t`. -/
def demoService : AgentServiceState :=
  { agents := [], terrain_layout := some demoTerrain, current_cwd := some "/t" }

end

/-- A PreToolUse event whose Read targets a known file. -/
def demoMoveEv : HookEvent :=
  { session_id := "s1", hook_event_name := "PreToolUse", tool_name := some "Read",
    tool_input := some [("file_path", "/t/a.txt")], cwd := none }

/-- A SessionStart event with a fresh working directory. -/
def demoStartEv : HookEvent :=
  { session_id := "s1", hook_event_name := "SessionStart", tool_name := none,
    tool_input := none, cwd := some "/w" }

/-- A SessionStart event with an invalid working directory. -/
def demoBadStartEv : HookEvent :=
  { session_id := "s1", hook_event_name := "SessionStart", tool_name := none,
    tool_input := none, cwd := some "/bad" }

/-- A modelled `scan_filesystem`: succeeds on `/w`, raises elsewhere. -/
noncomputable def demoSnapshot : String → Except String FilesystemLayout :=
  fun c => if c = "/w" then Except.ok demoTerrain else Except.error "Invalid directory"

/-- Witness for C3: a fresh SessionStart against `demoSnapshot`. -/
theorem C3_session_start_witness :
    (demoStartEv.cwd = some "/w" ∧ "/w" ≠ "" ∧ some "/w" ≠ initialService.current_cwd
      ∧ demoSnapshot "/w" = Except.ok demoTerrain) ∧
    (handle_session_start demoSnapshot initialService demoStartEv).2
      = [Notification.terrain_loading "s1" "/w" "Creating world...",
         Notification.filesystem demoTerrain,
         Notification.terrain_complete "s1" demoTerrain.folders.length
           demoTerrain.files.length,
         Notification.agent_spawn "s1" ⟨0.0, 0.0, 0.0⟩ "#e07850"] :=
  ⟨⟨rfl, by decide, by decide, by unfold demoSnapshot; rw [if_pos rfl]⟩,
   ((C3_session_start demoSnapshot initialService demoStartEv).1 "/w" demoTerrain rfl
      (by decide) (by decide) (by unfold demoSnapshot; rw [if_pos rfl])).1⟩

/-- Witness for C6: a failing SessionStart against `demoSnapshot`. -/
theorem C6_session_start_error_witness :
    (demoBadStartEv.cwd = some "/bad" ∧ "/bad" ≠ ""
      ∧ some "/bad" ≠ initialService.current_cwd
      ∧ demoSnapshot "/bad" = Except.error "Invalid directory") ∧
    ((handle_session_start demoSnapshot initialService demoBadStartEv).2
      = [Notification.terrain_loading "s1" "/bad" "Creating world...",
         Notification.agent_spawn "s1" ⟨0.0, 0.0, 0.0⟩ "#e07850"]
    ∧ (handle_session_start demoSnapshot initialService demoBadStartEv).1.terrain_layout
        = initialService.terrain_layout
    ∧ (handle_session_start demoSnapshot initialService demoBadStartEv).1.current_cwd
        = initialService.current_cwd
    ∧ ∃ a, getAgent (handle_session_start demoSnapshot initialService demoBadStartEv).1
          "s1" = some a ∧ a.position = (⟨0.0, 0.0, 0.0⟩ : Position)) :=
  ⟨⟨rfl, by decide, by decide, by unfold demoSnapshot; rw [if_neg (by decide)]⟩,
   C6_session_start_error demoSnapshot initialService demoBadStartEv "/bad"
     "Invalid directory" rfl (by decide) (by decide)
     (by unfold demoSnapshot; rw [if_neg (by decide)])⟩

/-- Witness for C4: a Read of a known file moves the agent to its stored
position. -/
theorem C4_pre_tool_use_witness :
    (demoService.terrain_layout = some demoTerrain
      ∧ demoMoveEv.tool_input = some [("file_path", "/t/a.txt")]
      ∧ ¬ ([("file_path", "/t/a.txt")] : List (String × String)).isEmpty = true
      ∧ extract_file_path (demoMoveEv.tool_name.getD "") [("file_path", "/t/a.txt")]
          = some "/t/a.txt"
      ∧ ¬ "/t/a.txt" = ""
      ∧ demoTerrain.files.find? (fun f => f.path = "/t/a.txt") = some demoFile
      ∧ demoFile.position = some demoFilePos) ∧
    (∃ e, (handle_pre_tool_use 0 demoService demoMoveEv).2
        = Notification.agent_event e
      ∧ e.event_type = "move" ∧ e.target_position = some demoFilePos
      ∧ e.target_path = some "/t/a.txt"
      ∧ ∃ a, getAgent (handle_pre_tool_use 0 demoService demoMoveEv).1
            demoMoveEv.session_id = some a
          ∧ a.position = demoFilePos) :=
  ⟨⟨rfl, rfl, by decide, by decide, by decide, rfl, rfl⟩,
   (C4_pre_tool_use 0 demoService demoMoveEv).2.2.1 demoTerrain
     [("file_path", "/t/a.txt")] "/t/a.txt" demoFile demoFilePos rfl rfl
     (by decide) (by decide) (by decide) rfl rfl⟩

/-! ## Claim C8 — the emitted thought -/

/-- A PreToolUse event with a tool name but an empty tool-input map. -/
def demoEmptyEv : HookEvent :=
  { session_id := "s1", hook_event_name := "PreToolUse", tool_name := some "Read",
    tool_input := some [], cwd := none }

/-- **C8, counterexample.** For a PreToolUse with tool `Read` and an empty
tool-input map, the narration rule by itself yields `"Using Read"`, but the
emitted AgentEvent carries a null thought — the handler only invokes
`generate_thought` when the input is non-empty. -/
theorem C8_thought_counterexample :
    (handle_pre_tool_use 0 initialService demoEmptyEv).2
      = Notification.agent_event
          { agent_id := "s1", event_type := "think", target_path := none,
            target_position := none, thought := none, tool_name := some "Read",
            timestamp := 0 }
    ∧ generate_thought "Read" [] = "Using Read"
    ∧ thought_of (some "Read") (some []) = none :=
  ⟨rfl, rfl, rfl⟩

/-- **C8, amended.** The emitted AgentEvent's thought equals
`generate_thought(toolName, toolInput)` exactly when both the tool name and
the tool input are present and non-empty, and is null otherwise; within the
narration rule itself, an empty input, a missing or empty expected
parameter, and an unrecognized tool name each fall back to
`"Using {toolName}"`. -/
theorem C8_thought_amended (now : Int) (st : AgentServiceState) (ev : HookEvent) :
    (∃ e, (handle_pre_tool_use now st ev).2 = Notification.agent_event e
      ∧ e.thought = thought_of ev.tool_name ev.tool_input)
    ∧ (∀ tn ti, ev.tool_name = some tn → ¬ tn = "" → ev.tool_input = some ti →
        ¬ ti.isEmpty = true →
        thought_of ev.tool_name ev.tool_input = some (generate_thought tn ti))
    ∧ ((ev.tool_name = none ∨ ev.tool_name = some "" ∨ ev.tool_input = none
        ∨ ev.tool_input = some []) →
      thought_of ev.tool_name ev.tool_input = none)
    ∧ (∀ tn : String, generate_thought tn [] = "Using " ++ tn)
    ∧ (∀ tn ti, tn ∉ (["Read", "Write", "Edit", "Bash", "Grep", "Glob"] : List String) →
        generate_thought tn ti = "Using " ++ tn)
    ∧ (∀ ti : List (String × String), ti ≠ [] →
        (dictGet ti "file_path" = none ∨ dictGet ti "file_path" = some "") →
        generate_thought "Read" ti = "Using Read"
        ∧ generate_thought "Write" ti = "Using Write"
        ∧ generate_thought "Edit" ti = "Using Edit")
    ∧ (∀ ti : List (String × String), ti ≠ [] →
        (dictGet ti "command" = none ∨ dictGet ti "command" = some "") →
        generate_thought "Bash" ti = "Using Bash")
    ∧ (∀ ti : List (String × String), ti ≠ [] →
        (dictGet ti "pattern" = none ∨ dictGet ti "pattern" = some "") →
        generate_thought "Grep" ti = "Using Grep"
        ∧ generate_thought "Glob" ti = "Using Glob") := by
  refine ⟨⟨pre_tool_event now st ev, rfl, rfl⟩, ?_, ?_, ?_, ?_, ?_, ?_, ?_⟩
  · intro tn ti htn htne hti hne
    rw [htn, hti]
    show (if tn ≠ "" ∧ ¬ti.isEmpty then some (generate_thought tn ti) else none) = _
    rw [if_pos ⟨htne, by simpa using hne⟩]
  · intro hcase
    rcases hcase with hc | hc | hc | hc
    · rw [hc]
      cases ev.tool_input <;> rfl
    · rw [hc]
      cases hti : ev.tool_input with
      | none => rfl
      | some ti =>
        show (if ("" : String) ≠ "" ∧ ¬ti.isEmpty then some (generate_thought "" ti)
          else none) = none
        rw [if_neg (by intro hand; exact hand.1 rfl)]
    · rw [hc]
      cases ev.tool_name <;> rfl
    · rw [hc]
      cases htn : ev.tool_name with
      | none => rfl
      | some tn =>
        show (if tn ≠ "" ∧ ¬([] : List (String × String)).isEmpty
          then some (generate_thought tn []) else none) = none
        rw [if_neg (by intro hand; exact hand.2 (by simp))]
  · intro tn
    simp [generate_thought]
  · intro tn ti hmem
    simp only [List.mem_cons, List.mem_singleton] at hmem
    push_neg at hmem
    obtain ⟨h1, h2, h3, h4, h5, h6⟩ := hmem
    by_cases hmt : ti.isEmpty
    · simp [generate_thought, hmt]
    · simp [generate_thought, hmt, h1, h2, h3, h4, h5, h6]
  · intro ti hti hget
    have hmt : ¬ ti.isEmpty = true := by
      cases ti with
      | nil => exact absurd rfl hti
      | cons a l => simp
    rcases hget with hget | hget <;>
      refine ⟨?_, ?_, ?_⟩ <;> simp [generate_thought, hmt, hget]
  · intro ti hti hget
    have hmt : ¬ ti.isEmpty = true := by
      cases ti with
      | nil => exact absurd rfl hti
      | cons a l => simp
    rcases hget with hget | hget <;> simp [generate_thought, hmt, hget]
  · intro ti hti hget
    have hmt : ¬ ti.isEmpty = true := by
      cases ti with
      | nil => exact absurd rfl hti
      | cons a l => simp
    rcases hget with hget | hget <;>
      refine ⟨?_, ?_⟩ <;> simp [generate_thought, hmt, hget]

/-- Witness for the amended C8 at a concrete event: a Bash command with a
non-empty input carries the narrated thought. -/
theorem C8_thought_amended_witness :
    ((⟨"s1", "PreToolUse", some "Bash", some [("command", "npm test")], none⟩ :
        HookEvent).tool_name = some "Bash"
      ∧ ¬ ("Bash" : String) = ""
      ∧ (⟨"s1", "PreToolUse", some "Bash", some [("command", "npm test")], none⟩ :
        HookEvent).tool_input = some [("command", "npm test")]
      ∧ ¬ ([("command", "npm test")] : List (String × String)).isEmpty = true) ∧
    thought_of (some "Bash") (some [("command", "npm test")])
      = some (generate_thought "Bash" [("command", "npm test")]) :=
  ⟨⟨rfl, by decide, rfl, by decide⟩,
   (C8_thought_amended 0 initialService
     ⟨"s1", "PreToolUse", some "Bash", some [("command", "npm test")], none⟩).2.1
     "Bash" [("command", "npm test")] rfl (by decide) rfl (by decide)⟩

/-! ## Claim C9 — the positioned folder record's fields

`position_folder_and_children` (`terrain.py`, lines 241–250) passes
`total_contents=` and `parent_path=` keyword arguments to the `Folder`
constructor, but the pydantic `Folder` model (`app/schemas/filesystem.py`,
lines 13–20) declares neither field, and pydantic silently ignores unknown
constructor keyword arguments: the positioned record carries only path,
name, depth, file count, position and height.  The theorem below evaluates
the engine at a concrete snapshot: the output records are exactly those six
fields. -/

/-- **C9 (code bug).** At the concrete snapshot `demoLayout`, the positioned
output consists of records carrying only the six declared schema fields —
the `total_contents` and `parent_path` values computed in `terrain.py` are
dropped by the pydantic model. -/
theorem C9_positioned_record_fields :
    ∃ p1 h1 p2 h2,
      (calculate_positions_for_layout demoRng demoLayout).folders
        = [{ path := "a", name := "a", depth := 1, file_count := 1,
             position := some p1, height := some h1 },
           { path := "a/b", name := "b", depth := 2, file_count := 0,
             position := some p2, height := some h2 }] :=
  ⟨_, _, _, _, rfl⟩

end Agentarium
